import Mathlib

/-!
Verification of the flat-file bulletin board (`src/app.py`).

The embedding models Python strings as `List Char` (sequences of Unicode
scalar values).  The storage file is `Option (List Char)`: `none` models a
missing `posts.txt` (`FileNotFoundError` on read), `some l` a file whose
decoded text content is `l`.

The interesting part of the program is the dual-format read path of
`load_posts` (JSON Lines with a legacy `title|||content` fallback) and the
JSON-line write path (`json.dumps(..., ensure_ascii=False)`).  The JSON
model below follows CPython's `json` module:
  * `pyLoads` models `json.loads` (strict mode): a fuel-indexed
    recursive-descent parser;
  * `dumpsJ` models `json.dumps(..., ensure_ascii=False)` with the default
    separators `", "` and `": "`;
  * numeric literals are kept as their lexeme (`Json.num`), which is exact
    for integers; float value normalisation (`1e3` printing as `1000.0`)
    is below the granularity any statement here needs;
  * `\uXXXX` escapes that denote lone surrogate halves (representable in a
    Python `str` but not as a Unicode scalar value) are mapped to U+FFFD.
-/

namespace FlaskBoard

/-- Shorthand turning a Lean string literal into the `List Char` model of a
Python string. -/
def toL (s : String) : List Char := s.toList

/-! ## Python string primitives -/

/-- The characters `str.strip()` (no argument) removes: Python's notion of
whitespace for `str` (Unicode bidirectional classes WS, B, S plus category
Zs). -/
def pyIsSpace (c : Char) : Bool :=
  let n := c.toNat
  (9 ≤ n && n ≤ 13) || (28 ≤ n && n ≤ 32) || n = 0x85 || n = 0xa0 ||
  n = 0x1680 || (0x2000 ≤ n && n ≤ 0x200a) || n = 0x2028 || n = 0x2029 ||
  n = 0x202f || n = 0x205f || n = 0x3000

/-- Python `s.strip()`: drop leading and trailing whitespace. -/
def pyStrip (l : List Char) : List Char :=
  ((l.dropWhile pyIsSpace).reverse.dropWhile pyIsSpace).reverse

/-- Universal-newline translation performed by text-mode file reading:
`"\r\n"` and a bare `"\r"` both become `"\n"`. -/
def normNewlines : List Char → List Char
  | [] => []
  | c :: t =>
    if c = '\r' then
      match t with
      | '\n' :: t2 => '\n' :: normNewlines t2
      | [] => ['\n']
      | c2 :: t2 => '\n' :: normNewlines (c2 :: t2)
    else c :: normNewlines t

/-- Split on `'\n'`.  `for raw in f` yields the same non-blank stripped
lines as this does (the terminators themselves are removed here; Python
keeps them on each line but `strip()` removes them again, and a trailing
empty piece is skipped as a blank line). -/
def splitLines : List Char → List (List Char)
  | [] => [[]]
  | c :: t =>
    if c = '\n' then [] :: splitLines t
    else (c :: (splitLines t).headI) :: (splitLines t).tail

/-- The lines Python iterates over for a text file with content `raw`. -/
def fileLines (raw : List Char) : List (List Char) :=
  splitLines (normNewlines raw)

/-- Python `line.split('|||', 1)` restricted to the found case:
`some (before, after)` splits at the first occurrence of `"|||"`;
`none` when the delimiter does not occur (`len(parts) == 2` fails). -/
def splitFirstDelim : List Char → Option (List Char × List Char)
  | [] => none
  | c :: t =>
    if c = '|' ∧ t.take 2 = ['|', '|'] then some ([], t.drop 2)
    else (splitFirstDelim t).map (fun p => (c :: p.1, p.2))

/-! ## JSON values -/

/-- JSON values as returned by `json.loads`.  Objects are key/value lists
in Python dict insertion order (first occurrence of a key fixes its
position, the last duplicate fixes its value). -/
inductive Json where
  | null : Json
  | bool (b : Bool) : Json
  | num (lex : List Char) : Json
  | str (s : List Char) : Json
  | arr (elems : List Json) : Json
  | obj (fields : List (List Char × Json)) : Json

/-- A stored post: the two values the loader keeps from a line.  The code
never checks that they are strings (see claim C7), so they are JSON
values. -/
structure Post where
  title : Json
  content : Json

/-- A post both of whose fields are strings, as written by `create`. -/
def strPost (t c : List Char) : Post := ⟨.str t, .str c⟩

/-! ## json.loads model -/

/-- JSON inter-token whitespace (`json.decoder.WHITESPACE_STR`). -/
def isJsonWs (c : Char) : Bool := c = ' ' || c = '\t' || c = '\n' || c = '\r'

def skipWs (s : List Char) : List Char := s.dropWhile isJsonWs

def hexVal? (c : Char) : Option Nat :=
  if '0' ≤ c ∧ c ≤ '9' then some (c.toNat - 48)
  else if 'a' ≤ c ∧ c ≤ 'f' then some (c.toNat - 87)
  else if 'A' ≤ c ∧ c ≤ 'F' then some (c.toNat - 55)
  else none

/-- Backslash escapes other than `\u` (`json.decoder.BACKSLASH`). -/
def escChar? (c : Char) : Option Char :=
  if c = '"' then some '"'
  else if c = '\\' then some '\\'
  else if c = '/' then some '/'
  else if c = 'b' then some (Char.ofNat 8)
  else if c = 'f' then some (Char.ofNat 12)
  else if c = 'n' then some '\n'
  else if c = 'r' then some '\r'
  else if c = 't' then some '\t'
  else none

/-- Code point to character; code points that are not Unicode scalar
values (lone surrogate halves) become U+FFFD. -/
def mkScalar (n : Nat) : Char :=
  if n.isValidChar then Char.ofNat n else '�'

/-- Body of a JSON string literal, after the opening quote: returns the
decoded characters and the input after the closing quote.  Mirrors
`json.decoder.py_scanstring` in strict mode: raw control characters below
U+0020 are rejected, `\uXXXX` escapes are decoded with surrogate-pair
combination.  Each step decodes one character, so any `fuel` above the
decoded length suffices; callers pass more than the input length. -/
def parseStringBody : Nat → List Char → Option (List Char × List Char)
  | 0, _ => none
  | _, [] => none
  | fl + 1, c :: t =>
    if c = '"' then some ([], t)
    else if c = '\\' then
      match t with
      | [] => none
      | e :: t2 =>
        if e = 'u' then
          match t2 with
          | h1 :: h2 :: h3 :: h4 :: t3 =>
            match hexVal? h1, hexVal? h2, hexVal? h3, hexVal? h4 with
            | some a, some b, some c1, some d =>
              let n := ((a * 16 + b) * 16 + c1) * 16 + d
              if 0xd800 ≤ n ∧ n ≤ 0xdbff then
                match t3 with
                | '\\' :: 'u' :: t4 =>
                  match t4 with
                  | k1 :: k2 :: k3 :: k4 :: t5 =>
                    match hexVal? k1, hexVal? k2, hexVal? k3, hexVal? k4 with
                    | some a2, some b2, some c2, some d2 =>
                      let m := ((a2 * 16 + b2) * 16 + c2) * 16 + d2
                      if 0xdc00 ≤ m ∧ m ≤ 0xdfff then
                        (parseStringBody fl t5).map (fun p =>
                          (mkScalar (0x10000 + (n - 0xd800) * 0x400 + (m - 0xdc00)) :: p.1, p.2))
                      else
                        (parseStringBody fl t3).map (fun p => ('�' :: p.1, p.2))
                    | _, _, _, _ => none
                  | _ => none
                | _ =>
                  (parseStringBody fl t3).map (fun p => ('�' :: p.1, p.2))
              else
                (parseStringBody fl t3).map (fun p => (mkScalar n :: p.1, p.2))
            | _, _, _, _ => none
          | _ => none
        else
          match escChar? e with
          | some d => (parseStringBody fl t2).map (fun p => (d :: p.1, p.2))
          | none => none
    else if c.toNat < 0x20 then none
    else (parseStringBody fl t).map (fun p => (c :: p.1, p.2))

/-- Characters a JSON number lexeme is drawn from. -/
def isNumChar (c : Char) : Bool :=
  c.isDigit || c = '.' || c = 'e' || c = 'E' || c = '+' || c = '-'

/-- One or more digits, then end of lexeme. -/
def digitsEnd : List Char → Bool
  | [] => false
  | d :: t => d.isDigit && t.all Char.isDigit

/-- What may follow `e`/`E`: an optional sign, then one or more digits. -/
def expTail : List Char → Bool
  | [] => false
  | s :: t => if s = '+' || s = '-' then digitsEnd t else digitsEnd (s :: t)

/-- Optional exponent part followed by end of lexeme. -/
def expOk : List Char → Bool
  | [] => true
  | c :: r => (c = 'e' || c = 'E') && expTail r

/-- What may follow `.`: one or more digits, then an optional exponent. -/
def fracTail : List Char → Bool
  | [] => false
  | d :: r2 => d.isDigit && expOk ((d :: r2).dropWhile Char.isDigit)

/-- Optional fraction part, then optional exponent, then end. -/
def fracExpOk : List Char → Bool
  | [] => true
  | c :: r => if c = '.' then fracTail r else expOk (c :: r)

/-- Integer part (`0` or a nonzero digit followed by digits), then the
rest of the grammar. -/
def intPartOk : List Char → Bool
  | [] => false
  | c :: r =>
    if c = '0' then fracExpOk r
    else c.isDigit && fracExpOk (r.dropWhile Char.isDigit)

/-- Whether a lexeme matches `json.scanner.NUMBER_RE` in full:
`-?(0|[1-9][0-9]*)(\.[0-9]+)?([eE][+-]?[0-9]+)?`. -/
def validNum : List Char → Bool
  | [] => false
  | c :: r => if c = '-' then intPartOk r else intPartOk (c :: r)

/-- Number scanning: grab the maximal run of number characters and accept
iff it matches the number grammar in full.  This has the same
success/failure behaviour as CPython's regex maximal munch followed by the
delimiter check, at every position `load_posts` can observe. -/
def parseNumber (s : List Char) : Option (Json × List Char) :=
  let lex := s.takeWhile isNumChar
  if validNum lex then some (.num lex, s.dropWhile isNumChar) else none

/-- Python dict building for object members: a repeated key keeps its
original position and takes the new value, a new key is appended. -/
def insertKey : List (List Char × Json) → List Char → Json → List (List Char × Json)
  | [], k, v => [(k, v)]
  | (k0, v0) :: t, k, v =>
    if k0 = k then (k0, v) :: t else (k0, v0) :: insertKey t k v

def hasKey (fs : List (List Char × Json)) (k : List Char) : Bool :=
  fs.any (fun p => p.1 = k)

def lookupKey (fs : List (List Char × Json)) (k : List Char) : Json :=
  match fs.find? (fun p => p.1 = k) with
  | some p => p.2
  | none => .null

mutual

/-- One JSON value starting at `s` (leading whitespace allowed), returning
the remaining input.  `fuel` only bounds recursion depth; `pyLoads` hands
every call more fuel than the parser can consume. -/
def parseValue : Nat → List Char → Option (Json × List Char)
  | 0, _ => none
  | f + 1, input =>
    match skipWs input with
    | [] => none
    | c :: t =>
      if c = '"' then (parseStringBody (t.length + 1) t).map (fun p => (.str p.1, p.2))
      else if c = '{' then
        match skipWs t with
        | '}' :: r => some (.obj [], r)
        | t2 => parseMembers f t2 []
      else if c = '[' then
        match skipWs t with
        | ']' :: r => some (.arr [], r)
        | t2 => parseItems f t2 []
      else if c = 'n' then
        if t.take 3 = toL "ull" then some (.null, t.drop 3) else none
      else if c = 't' then
        if t.take 3 = toL "rue" then some (.bool true, t.drop 3) else none
      else if c = 'f' then
        if t.take 4 = toL "alse" then some (.bool false, t.drop 4) else none
      else if c = 'N' then
        if t.take 2 = toL "aN" then some (.num (toL "NaN"), t.drop 2) else none
      else if c = 'I' then
        if t.take 7 = toL "nfinity" then some (.num (toL "Infinity"), t.drop 7)
        else none
      else if c = '-' then
        if t.take 8 = toL "Infinity" then some (.num (toL "-Infinity"), t.drop 8)
        else parseNumber (c :: t)
      else if c.isDigit then parseNumber (c :: t)
      else none

/-- Array elements after `'['` (first element's first character already
known not to be `]`), accumulating into `acc`. -/
def parseItems : Nat → List Char → List Json → Option (Json × List Char)
  | 0, _, _ => none
  | f + 1, s, acc =>
    match parseValue f s with
    | none => none
    | some (v, r) =>
      match skipWs r with
      | ',' :: r2 => parseItems f (skipWs r2) (acc ++ [v])
      | ']' :: r2 => some (.arr (acc ++ [v]), r2)
      | _ => none

/-- Object members after `'{'` (first character already known not to be
`}`), accumulating a Python dict into `acc`. -/
def parseMembers : Nat → List Char → List (List Char × Json) →
    Option (Json × List Char)
  | 0, _, _ => none
  | f + 1, s, acc =>
    match s with
    | '"' :: t =>
      match parseStringBody (t.length + 1) t with
      | none => none
      | some (k, r) =>
        match skipWs r with
        | ':' :: r2 =>
          match parseValue f (skipWs r2) with
          | none => none
          | some (v, r3) =>
            match skipWs r3 with
            | ',' :: r4 => parseMembers f (skipWs r4) (insertKey acc k v)
            | '}' :: r4 => some (.obj (insertKey acc k v), r4)
            | _ => none
        | _ => none
    | _ => none

end

/-- `json.loads` on one line: parse one value, then only trailing
whitespace may remain (otherwise "Extra data").  The fuel `2·|line| + 4`
exceeds what the parser can consume: at least every second recursive call
consumes one input character. -/
def pyLoads (line : List Char) : Option Json :=
  match parseValue (2 * line.length + 4) line with
  | some (j, rest) => if skipWs rest = [] then some j else none
  | none => none

/-! ## json.dumps model -/

/-- Lowercase hex digit, as in `'\u%04x' % i`. -/
def hexDigit (n : Nat) : Char :=
  if n < 10 then Char.ofNat (48 + n) else Char.ofNat (87 + n)

/-- `json.encoder` escaping with `ensure_ascii=False`: only `\`, `"` and
control characters below U+0020 are replaced. -/
def encodeChar (c : Char) : List Char :=
  if c = '\\' then ['\\', '\\']
  else if c = '"' then ['\\', '"']
  else if c = Char.ofNat 8 then ['\\', 'b']
  else if c = Char.ofNat 12 then ['\\', 'f']
  else if c = '\n' then ['\\', 'n']
  else if c = '\r' then ['\\', 'r']
  else if c = '\t' then ['\\', 't']
  else if c.toNat < 0x20 then
    ['\\', 'u', '0', '0', hexDigit (c.toNat / 16), hexDigit (c.toNat % 16)]
  else [c]

def encBody : List Char → List Char
  | [] => []
  | c :: t => encodeChar c ++ encBody t

/-- A JSON string literal for `s`. -/
def encodeStr (s : List Char) : List Char := '"' :: encBody s ++ ['"']

mutual

/-- `json.dumps(v, ensure_ascii=False)` with the default separators
`", "` and `": "`. -/
def dumpsJ : Json → List Char
  | .null => toL "null"
  | .bool true => toL "true"
  | .bool false => toL "false"
  | .num lex => lex
  | .str s => encodeStr s
  | .arr es => '[' :: dumpsItems es ++ [']']
  | .obj fs => '{' :: dumpsMembers fs ++ ['}']

def dumpsItems : List Json → List Char
  | [] => []
  | [e] => dumpsJ e
  | e :: es => dumpsJ e ++ ',' :: ' ' :: dumpsItems es

def dumpsMembers : List (List Char × Json) → List Char
  | [] => []
  | [(k, v)] => encodeStr k ++ ':' :: ' ' :: dumpsJ v
  | (k, v) :: fs => encodeStr k ++ ':' :: ' ' :: dumpsJ v ++ ',' :: ' ' :: dumpsMembers fs

end

/-! ## Well-formedness and size of JSON values -/

/-- Lexemes `Json.num` can carry: what the number scanner or the constant
scanner can produce. -/
def wfNum (lex : List Char) : Bool :=
  validNum lex || lex = toL "NaN" || lex = toL "Infinity" || lex = toL "-Infinity"

mutual

/-- Values `json.loads` can return: number lexemes are well formed and
object keys are distinct (Python dicts). -/
def wfJ : Json → Bool
  | .null => true
  | .bool _ => true
  | .num lex => wfNum lex
  | .str _ => true
  | .arr es => wfL es
  | .obj fs => wfF fs

def wfL : List Json → Bool
  | [] => true
  | e :: t => wfJ e && wfL t

def wfF : List (List Char × Json) → Bool
  | [] => true
  | (k, v) :: t => !hasKey t k && wfJ v && wfF t

end

mutual

/-- Fuel needed by `parseValue` to reparse `dumpsJ j`. -/
def sizeJ : Json → Nat
  | .null => 1
  | .bool _ => 1
  | .num _ => 1
  | .str _ => 1
  | .arr es => 1 + sizeL es
  | .obj fs => 1 + sizeF fs

def sizeL : List Json → Nat
  | [] => 1
  | e :: t => 1 + sizeJ e + sizeL t

def sizeF : List (List Char × Json) → Nat
  | [] => 1
  | (_, v) :: t => 1 + sizeJ v + sizeF t

end

def wfPost (p : Post) : Prop := wfJ p.title = true ∧ wfJ p.content = true

/-! ## The record store and board operations (`src/app.py`) -/

/-- The JSON branch of the loader loop (lines 28–34 of `app.py`): `some`
exactly when `json.loads(line)` succeeds with a dict having both a
`'title'` and a `'content'` key — only then does the loop `continue`;
both a decode error and a non-qualifying value fall through to the
legacy split. -/
def jsonStep (line : List Char) : Option Post :=
  match pyLoads line with
  | some (.obj fs) =>
    if hasKey fs (toL "title") && hasKey fs (toL "content") then
      some ⟨lookupKey fs (toL "title"), lookupKey fs (toL "content")⟩
    else none
  | _ => none

/-- One iteration of the `for raw in f` loop in `load_posts`. -/
def processLine (posts : List Post) (raw : List Char) : List Post :=
  let line := pyStrip raw
  if line = [] then posts
  else
    match jsonStep line with
    | some p => posts ++ [p]
    | none =>
      match splitFirstDelim line with
      | some (t, c) => posts ++ [strPost t c]
      | none => posts

/-- `load_posts()`: missing file gives `[]`; otherwise fold the loop over
the file's lines. -/
def load_posts : Option (List Char) → List Post
  | none => []
  | some raw => (fileLines raw).foldl processLine []

/-- The JSON line `save_post`/`save_all_posts` write for one post:
`json.dumps({'title': ..., 'content': ...}, ensure_ascii=False)`. -/
def postLine (p : Post) : List Char :=
  dumpsJ (.obj [(toL "title", p.title), (toL "content", p.content)])

/-- `save_post(title, content)`: append one JSON line plus `'\n'`, mode
`'a'` creating the file if missing. -/
def save_post (st : Option (List Char)) (title content : List Char) :
    Option (List Char) :=
  some ((st.getD []) ++ postLine (strPost title content) ++ ['\n'])

/-- `save_all_posts(posts)`: mode `'w'` truncates, so the result does not
depend on the previous file content. -/
def save_all_posts (posts : List Post) : Option (List Char) :=
  some ((posts.map (fun p => postLine p ++ ['\n'])).flatten)

/-- The POST branch of `/create`: the title is stripped, the content is
stored verbatim. -/
def create (st : Option (List Char)) (title content : List Char) :
    Option (List Char) :=
  save_post st (pyStrip title) content

/-- `/detail/<index>`: `some post` renders the page, `none` is the
404 response. -/
def detail (st : Option (List Char)) (index : Int) : Option Post :=
  let posts := load_posts st
  if h : 0 ≤ index ∧ index < (posts.length : Int) then
    some (posts.get ⟨index.toNat, by omega⟩)
  else none

/-- The POST branch of `/edit/<index>`: `(new file state, is404)`.  Out of
bounds returns 404 without touching the file; otherwise the element is
replaced and the whole list rewritten. -/
def edit (st : Option (List Char)) (index : Int) (title content : List Char) :
    Option (List Char) × Bool :=
  let posts := load_posts st
  if 0 ≤ index ∧ index < (posts.length : Int) then
    (save_all_posts (posts.set index.toNat (strPost title content)), false)
  else (st, true)

/-- `/delete/<index>` (POST): in bounds the element is removed and the
list rewritten, out of bounds nothing happens; either way the handler
redirects to the board (success). -/
def delete (st : Option (List Char)) (index : Int) : Option (List Char) :=
  let posts := load_posts st
  if 0 ≤ index ∧ index < (posts.length : Int) then
    save_all_posts (posts.eraseIdx index.toNat)
  else st

/-! ## Lemmas: string-literal round trip -/

theorem encodeChar_length (c : Char) : 1 ≤ (encodeChar c).length := by
  unfold encodeChar; split_ifs <;> simp

theorem length_le_encBody (s : List Char) : s.length ≤ (encBody s).length := by
  induction s with
  | nil => simp [encBody]
  | cons c t ih =>
    have := encodeChar_length c
    simp only [encBody, List.length_cons, List.length_append]
    omega

theorem hexVal_hexDigit : ∀ n, n < 16 → hexVal? (hexDigit n) = some n := by decide

theorem mkScalar_toNat (c : Char) (h : c.toNat < 0xd800) : mkScalar c.toNat = c := by
  unfold mkScalar
  rw [if_pos (Or.inl h)]
  exact Char.ofNat_toNat c

theorem parseStringBody_enc (s : List Char) : ∀ (fl : Nat) (rest : List Char),
    s.length < fl →
    parseStringBody fl (encBody s ++ '"' :: rest) = some (s, rest) := by
  induction s with
  | nil =>
    intro fl rest h
    obtain ⟨fl, rfl⟩ : ∃ k, fl = k + 1 := ⟨fl - 1, by omega⟩
    simp [encBody, parseStringBody]
  | cons c t ih =>
    intro fl rest h
    obtain ⟨fl, rfl⟩ : ∃ k, fl = k + 1 := ⟨fl - 1, by omega⟩
    have iht := ih fl rest (by simp at h; omega)
    by_cases h1 : c = '\\'
    · subst h1; simp [encBody, encodeChar, parseStringBody, escChar?, iht]
    by_cases h2 : c = '"'
    · subst h2; simp [encBody, encodeChar, parseStringBody, escChar?, iht]
    by_cases h3 : c = Char.ofNat 8
    · subst h3; simp [encBody, encodeChar, parseStringBody, escChar?, iht]
    by_cases h4 : c = Char.ofNat 12
    · subst h4; simp [encBody, encodeChar, parseStringBody, escChar?, iht]
    by_cases h5 : c = '\n'
    · subst h5; simp [encBody, encodeChar, parseStringBody, escChar?, iht]
    by_cases h6 : c = '\r'
    · subst h6; simp [encBody, encodeChar, parseStringBody, escChar?, iht]
    by_cases h7 : c = '\t'
    · subst h7; simp [encBody, encodeChar, parseStringBody, escChar?, iht]
    by_cases h8 : c.toNat < 0x20
    · have e1 : hexVal? (hexDigit (c.toNat / 16)) = some (c.toNat / 16) :=
        hexVal_hexDigit _ (by omega)
      have e2 : hexVal? (hexDigit (c.toNat % 16)) = some (c.toNat % 16) :=
        hexVal_hexDigit _ (by omega)
      have e3 : c.toNat / 16 * 16 + c.toNat % 16 = c.toNat := by omega
      have e4 : mkScalar c.toNat = c := mkScalar_toNat c (by omega)
      have e5 : ¬(55296 ≤ c.toNat ∧ c.toNat ≤ 56319) := by omega
      simp only [encBody, encodeChar, if_neg h1, if_neg h2, if_neg h3, if_neg h4,
        if_neg h5, if_neg h6, if_neg h7, if_pos h8, List.cons_append, List.append_assoc]
      have e0 : hexVal? '0' = some 0 := by decide
      simp [parseStringBody, e0, e1, e2, e3, e4, e5, iht]
    · simp only [encBody, encodeChar, if_neg h1, if_neg h2, if_neg h3, if_neg h4,
        if_neg h5, if_neg h6, if_neg h7, if_neg h8, List.cons_append,
        List.append_assoc, List.singleton_append]
      simp [parseStringBody, if_neg h2, if_neg h1, if_neg h8, iht]

/-! ## Lemmas: number lexemes -/

theorem all_digit_numChar (l : List Char) (h : l.all Char.isDigit = true) :
    l.all isNumChar = true := by
  simp only [List.all_eq_true] at h ⊢
  intro c hc
  simp [isNumChar, h c hc]

theorem takeWhile_all_digit (l : List Char) :
    (l.takeWhile Char.isDigit).all Char.isDigit = true := by
  simp only [List.all_eq_true]
  intro x hx
  exact List.mem_takeWhile_imp hx

theorem digitsEnd_all (l : List Char) (h : digitsEnd l = true) :
    l.all Char.isDigit = true := by
  cases l with
  | nil => simp [digitsEnd] at h
  | cons d t =>
    simp only [digitsEnd, Bool.and_eq_true] at h
    simp [List.all_cons, h.1, h.2]

theorem expOk_all (r : List Char) (h : expOk r = true) : r.all isNumChar = true := by
  cases r with
  | nil => rfl
  | cons c r' =>
    simp only [expOk, Bool.and_eq_true, Bool.or_eq_true, decide_eq_true_eq] at h
    obtain ⟨hc, h2⟩ := h
    have hcn : isNumChar c = true := by rcases hc with hc | hc <;> simp [isNumChar, hc]
    cases r' with
    | nil => simp [expTail] at h2
    | cons s t =>
      simp only [expTail] at h2
      simp only [List.all_cons, Bool.and_eq_true]
      split at h2
      next hs =>
        simp only [Bool.or_eq_true, decide_eq_true_eq] at hs
        have hsn : isNumChar s = true := by rcases hs with hs | hs <;> simp [isNumChar, hs]
        have := all_digit_numChar t (digitsEnd_all t h2)
        exact ⟨hcn, hsn, by simpa using this⟩
      next =>
        have := all_digit_numChar _ (digitsEnd_all (s :: t) h2)
        simp only [List.all_cons, Bool.and_eq_true] at this
        exact ⟨hcn, this.1, this.2⟩

theorem fracExpOk_all (l : List Char) (h : fracExpOk l = true) :
    l.all isNumChar = true := by
  cases l with
  | nil => rfl
  | cons c r =>
    simp only [fracExpOk] at h
    by_cases hc : c = '.'
    · rw [if_pos hc] at h
      cases r with
      | nil => simp [fracTail] at h
      | cons d r2 =>
        simp only [fracTail, Bool.and_eq_true] at h
        obtain ⟨_, hexp⟩ := h
        have hr : (d :: r2).all isNumChar = true := by
          rw [← List.takeWhile_append_dropWhile Char.isDigit (d :: r2), List.all_append]
          simp only [Bool.and_eq_true]
          exact ⟨all_digit_numChar _ (takeWhile_all_digit _), expOk_all _ hexp⟩
        subst hc
        simp only [List.all_cons, Bool.and_eq_true] at hr ⊢
        exact ⟨by decide, hr⟩
    · rw [if_neg hc] at h
      exact expOk_all _ h

theorem intPartOk_all (l : List Char) (h : intPartOk l = true) :
    l.all isNumChar = true := by
  cases l with
  | nil => simp [intPartOk] at h
  | cons c r =>
    simp only [intPartOk] at h
    by_cases hc : c = '0'
    · rw [if_pos hc] at h
      subst hc
      simp only [List.all_cons, Bool.and_eq_true]
      exact ⟨by decide, by simpa using fracExpOk_all r h⟩
    · rw [if_neg hc] at h
      simp only [Bool.and_eq_true] at h
      obtain ⟨hd, hfe⟩ := h
      have hr : r.all isNumChar = true := by
        rw [← List.takeWhile_append_dropWhile Char.isDigit r, List.all_append]
        simp only [Bool.and_eq_true]
        exact ⟨all_digit_numChar _ (takeWhile_all_digit _), fracExpOk_all _ hfe⟩
      simp only [List.all_cons, Bool.and_eq_true]
      exact ⟨by simp [isNumChar, hd], hr⟩

theorem validNum_all (l : List Char) (h : validNum l = true) :
    l.all isNumChar = true := by
  cases l with
  | nil => rfl
  | cons c r =>
    simp only [validNum] at h
    by_cases hc : c = '-'
    · rw [if_pos hc] at h
      subst hc
      simp only [List.all_cons, Bool.and_eq_true]
      exact ⟨by decide, by simpa using intPartOk_all r h⟩
    · rw [if_neg hc] at h
      exact intPartOk_all _ h

theorem intPartOk_head (l : List Char) (h : intPartOk l = true) :
    ∃ d t, l = d :: t ∧ d.isDigit = true := by
  cases l with
  | nil => simp [intPartOk] at h
  | cons c r =>
    refine ⟨c, r, rfl, ?_⟩
    simp only [intPartOk] at h
    by_cases hc : c = '0'
    · subst hc; decide
    · rw [if_neg hc] at h
      simp only [Bool.and_eq_true] at h
      exact h.1

theorem validNum_head (c : Char) (t : List Char) (h : validNum (c :: t) = true) :
    c = '-' ∨ c.isDigit = true := by
  simp only [validNum] at h
  by_cases hc : c = '-'
  · exact Or.inl hc
  · rw [if_neg hc] at h
    obtain ⟨d, t2, hd, hdig⟩ := intPartOk_head _ h
    cases hd
    exact Or.inr hdig

theorem validNum_neg (t : List Char) (h : validNum ('-' :: t) = true) :
    ∃ d t2, t = d :: t2 ∧ d.isDigit = true := by
  simp only [validNum, if_pos] at h
  exact intPartOk_head _ (by simpa using h)

/-- The character after a serialized value in every context `dumpsJ`
produces (`,`, `]`, `}`, end of input) cannot extend a number lexeme. -/
def numStop : List Char → Prop
  | [] => True
  | c :: _ => isNumChar c = false

theorem num_takeWhile (lex rest : List Char) (ha : lex.all isNumChar = true)
    (hb : numStop rest) :
    (lex ++ rest).takeWhile isNumChar = lex ∧
      (lex ++ rest).dropWhile isNumChar = rest := by
  induction lex with
  | nil =>
    cases rest with
    | nil => exact ⟨rfl, rfl⟩
    | cons c t =>
      simp only [numStop] at hb
      simp [List.takeWhile_cons, List.dropWhile_cons, hb]
  | cons c t ih =>
    simp only [List.all_cons, Bool.and_eq_true] at ha
    obtain ⟨hc, ht⟩ := ha
    have h2 := ih ht
    simp [List.takeWhile_cons, List.dropWhile_cons, hc, h2.1, h2.2]

theorem parseNumber_enc (lex rest : List Char) (h : validNum lex = true)
    (hr : numStop rest) :
    parseNumber (lex ++ rest) = some (.num lex, rest) := by
  obtain ⟨h1, h2⟩ := num_takeWhile lex rest (validNum_all lex h) hr
  simp [parseNumber, h1, h2, h]

/-! ## Lemmas: heads of serialized values -/

theorem char_ne_toNat (c : Char) (n : Nat) (hd : c.toNat ≠ n) (d : Char)
    (hdn : d.toNat = n) : c ≠ d :=
  fun e => hd (by rw [e, hdn])

theorem isDigit_toNat (c : Char) (h : c.isDigit = true) :
    48 ≤ c.toNat ∧ c.toNat ≤ 57 := by
  simp only [Char.isDigit, Bool.and_eq_true, decide_eq_true_eq] at h
  exact ⟨h.1, h.2⟩

theorem isJsonWs_false (c : Char) (h9 : c.toNat ≠ 32) (ht : c.toNat ≠ 9)
    (hn : c.toNat ≠ 10) (hr : c.toNat ≠ 13) : isJsonWs c = false := by
  simp only [isJsonWs, Bool.or_eq_false_iff, decide_eq_false_iff_not]
  exact ⟨⟨⟨char_ne_toNat c 32 h9 ' ' rfl, char_ne_toNat c 9 ht '\t' rfl⟩,
    char_ne_toNat c 10 hn '\n' rfl⟩, char_ne_toNat c 13 hr '\x0d' rfl⟩

theorem digit_head_facts (c : Char) (h : c.isDigit = true) :
    isJsonWs c = false ∧ c ≠ '"' ∧ c ≠ '{' ∧ c ≠ '[' ∧ c ≠ 'n' ∧ c ≠ 't' ∧
      c ≠ 'f' ∧ c ≠ 'N' ∧ c ≠ 'I' ∧ c ≠ ']' ∧ c ≠ '}' ∧ c ≠ '-' := by
  obtain ⟨h1, h2⟩ := isDigit_toNat c h
  exact ⟨isJsonWs_false c (by omega) (by omega) (by omega) (by omega),
    char_ne_toNat c 34 (by omega) '"' rfl,
    char_ne_toNat c 123 (by omega) '{' rfl,
    char_ne_toNat c 91 (by omega) '[' rfl,
    char_ne_toNat c 110 (by omega) 'n' rfl,
    char_ne_toNat c 116 (by omega) 't' rfl,
    char_ne_toNat c 102 (by omega) 'f' rfl,
    char_ne_toNat c 78 (by omega) 'N' rfl,
    char_ne_toNat c 73 (by omega) 'I' rfl,
    char_ne_toNat c 93 (by omega) ']' rfl,
    char_ne_toNat c 125 (by omega) '}' rfl,
    char_ne_toNat c 45 (by omega) '-' rfl⟩

theorem validNum_nonempty (lex : List Char) (h : validNum lex = true) : lex ≠ [] := by
  intro e; subst e; simp [validNum] at h

theorem wfNum_nonempty (lex : List Char) (h : wfNum lex = true) : lex ≠ [] := by
  simp only [wfNum, Bool.or_eq_true, decide_eq_true_eq] at h
  rcases h with ((h | h) | h) | h
  · exact validNum_nonempty _ h
  all_goals (subst h; simp [toL])

/-- First character of a serialized value: never whitespace, never a
closing bracket. -/
theorem dumpsJ_head (j : Json) (h : wfJ j = true) :
    ∃ c t, dumpsJ j = c :: t ∧ isJsonWs c = false ∧ c ≠ ']' ∧ c ≠ '}' := by
  cases j with
  | null =>
    exact ⟨'n', toL "ull", by simp [dumpsJ, toL], by decide, by decide, by decide⟩
  | bool b =>
    cases b with
    | false =>
      exact ⟨'f', toL "alse", by simp [dumpsJ, toL], by decide, by decide, by decide⟩
    | true =>
      exact ⟨'t', toL "rue", by simp [dumpsJ, toL], by decide, by decide, by decide⟩
  | str s =>
    exact ⟨'"', encBody s ++ ['"'], by simp [dumpsJ, encodeStr], by decide,
      by decide, by decide⟩
  | arr es =>
    exact ⟨'[', dumpsItems es ++ [']'], by simp [dumpsJ], by decide, by decide,
      by decide⟩
  | obj fs =>
    exact ⟨'{', dumpsMembers fs ++ ['}'], by simp [dumpsJ], by decide, by decide,
      by decide⟩
  | num lex =>
    simp only [wfJ] at h
    simp only [wfNum, Bool.or_eq_true, decide_eq_true_eq] at h
    rcases h with ((h | h) | h) | h
    · cases lex with
      | nil => simp [validNum] at h
      | cons c t =>
        refine ⟨c, t, by simp [dumpsJ], ?_⟩
        rcases validNum_head c t h with hc | hc
        · subst hc; exact ⟨by decide, by decide, by decide⟩
        · obtain ⟨hw, _, _, _, _, _, _, _, _, h10, h11, _⟩ := digit_head_facts c hc
          exact ⟨hw, h10, h11⟩
    · subst h
      exact ⟨'N', toL "aN", by simp [dumpsJ, toL], by decide, by decide, by decide⟩
    · subst h
      exact ⟨'I', toL "nfinity", by simp [dumpsJ, toL], by decide, by decide,
        by decide⟩
    · subst h
      exact ⟨'-', toL "Infinity", by simp [dumpsJ, toL], by decide, by decide,
        by decide⟩

theorem dumpsMembers_head (k : List Char) (v : Json)
    (tl : List (List Char × Json)) :
    ∃ t, dumpsMembers ((k, v) :: tl) = '"' :: t := by
  cases tl with
  | nil =>
    refine ⟨encBody k ++ ['"'] ++ (':' :: ' ' :: dumpsJ v), ?_⟩
    simp [dumpsMembers, encodeStr]
  | cons p tl2 =>
    refine ⟨encBody k ++ ['"'] ++
      (':' :: ' ' :: (dumpsJ v ++ ',' :: ' ' :: dumpsMembers (p :: tl2))), ?_⟩
    simp [dumpsMembers, encodeStr]

/-! ## Lemmas: Python dict building -/

theorem insertKey_not_has (acc : List (List Char × Json)) (k : List Char) (v : Json)
    (h : hasKey acc k = false) : insertKey acc k v = acc ++ [(k, v)] := by
  induction acc with
  | nil => rfl
  | cons p t ih =>
    obtain ⟨k0, v0⟩ := p
    simp only [hasKey, List.any_cons, Bool.or_eq_false_iff,
      decide_eq_false_iff_not] at h
    simp only [insertKey, if_neg h.1, List.cons_append]
    rw [ih (by simp [hasKey, h.2])]

theorem hasKey_append_one (acc : List (List Char × Json)) (k k' : List Char)
    (v : Json) :
    hasKey (acc ++ [(k, v)]) k' = (hasKey acc k' || decide (k = k')) := by
  simp [hasKey, List.any_append]

theorem mem_of_hasKey_false (tl : List (List Char × Json)) (k k2 : List Char)
    (v2 : Json) (h : hasKey tl k = false) (hm : (k2, v2) ∈ tl) : k2 ≠ k := by
  simp only [hasKey, List.any_eq_false, decide_eq_false_iff_not] at h
  simpa using h _ hm

/-! ## Lemmas: parseValue dispatch on the first character -/

theorem skipWs_cons_false (c : Char) (t : List Char) (h : isJsonWs c = false) :
    skipWs (c :: t) = c :: t := by
  simp [skipWs, List.dropWhile_cons, h]

theorem skipWs_space (t : List Char) : skipWs (' ' :: t) = skipWs t := by
  simp [skipWs, List.dropWhile_cons, (by decide : isJsonWs ' ' = true)]

theorem parseValue_null (f : Nat) (rest : List Char) :
    parseValue (f + 1) ('n' :: 'u' :: 'l' :: 'l' :: rest) = some (.null, rest) := by
  simp [parseValue, skipWs_cons_false 'n' _ (by decide), toL]

theorem parseValue_true (f : Nat) (rest : List Char) :
    parseValue (f + 1) ('t' :: 'r' :: 'u' :: 'e' :: rest) = some (.bool true, rest) := by
  simp [parseValue, skipWs_cons_false 't' _ (by decide), toL]

theorem parseValue_false (f : Nat) (rest : List Char) :
    parseValue (f + 1) ('f' :: 'a' :: 'l' :: 's' :: 'e' :: rest) =
      some (.bool false, rest) := by
  simp [parseValue, skipWs_cons_false 'f' _ (by decide), toL]

theorem parseValue_nan (f : Nat) (rest : List Char) :
    parseValue (f + 1) ('N' :: 'a' :: 'N' :: rest) = some (.num (toL "NaN"), rest) := by
  simp [parseValue, skipWs_cons_false 'N' _ (by decide), toL]

theorem parseValue_inf (f : Nat) (rest : List Char) :
    parseValue (f + 1) ('I' :: 'n' :: 'f' :: 'i' :: 'n' :: 'i' :: 't' :: 'y' :: rest) =
      some (.num (toL "Infinity"), rest) := by
  simp [parseValue, skipWs_cons_false 'I' _ (by decide), toL]

theorem parseValue_ninf (f : Nat) (rest : List Char) :
    parseValue (f + 1)
      ('-' :: 'I' :: 'n' :: 'f' :: 'i' :: 'n' :: 'i' :: 't' :: 'y' :: rest) =
      some (.num (toL "-Infinity"), rest) := by
  simp [parseValue, skipWs_cons_false '-' _ (by decide), toL]

theorem parseValue_str (f : Nat) (s rest : List Char) :
    parseValue (f + 1) ('"' :: (encBody s ++ '"' :: rest)) = some (.str s, rest) := by
  have hb := length_le_encBody s
  have he : parseStringBody ((encBody s ++ '"' :: rest).length + 1)
      (encBody s ++ '"' :: rest) = some (s, rest) :=
    parseStringBody_enc s _ rest (by simp; omega)
  simp [parseValue, skipWs_cons_false '"' _ (by decide)]
  simpa using he

theorem parseValue_num (f : Nat) (lex rest : List Char) (h : validNum lex = true)
    (hr : numStop rest) :
    parseValue (f + 1) (lex ++ rest) = some (.num lex, rest) := by
  cases lex with
  | nil => exact absurd h (by simp [validNum])
  | cons c t =>
    have hpn : parseNumber (c :: (t ++ rest)) = some (.num (c :: t), rest) := by
      have h2 := parseNumber_enc (c :: t) rest h hr
      simp only [List.cons_append] at h2
      exact h2
    rcases validNum_head c t h with hc | hc
    · subst hc
      obtain ⟨d, t2, ht, hd⟩ := validNum_neg t h
      subst ht
      have hdI : d ≠ 'I' := by
        obtain ⟨_, _, _, _, _, _, _, _, hI, _, _, _⟩ := digit_head_facts d hd
        exact hI
      simp only [List.cons_append] at hpn ⊢
      simp [parseValue, skipWs_cons_false '-' _ (by decide), toL,
        List.take_succ_cons, hdI, hpn]
    · obtain ⟨hw, hq, hob, hab, hn, ht', hf, hN, hI, _, _, hm⟩ := digit_head_facts c hc
      simp only [List.cons_append]
      simp [parseValue, skipWs_cons_false c _ hw, hq, hob, hab, hn, ht', hf,
        hN, hI, hm, hc, hpn]

theorem parseValue_arr_nil (f : Nat) (rest : List Char) :
    parseValue (f + 1) ('[' :: ']' :: rest) = some (.arr [], rest) := by
  simp [parseValue, skipWs_cons_false '[' _ (by decide),
    skipWs_cons_false ']' _ (by decide)]

theorem parseValue_obj_nil (f : Nat) (rest : List Char) :
    parseValue (f + 1) ('{' :: '}' :: rest) = some (.obj [], rest) := by
  simp [parseValue, skipWs_cons_false '{' _ (by decide),
    skipWs_cons_false '}' _ (by decide)]

theorem parseValue_arr_go (f : Nat) (c : Char) (t : List Char)
    (hws : isJsonWs c = false) (hbr : c ≠ ']') :
    parseValue (f + 1) ('[' :: c :: t) = parseItems f (c :: t) [] := by
  simp [parseValue, skipWs_cons_false '[' _ (by decide),
    skipWs_cons_false c t hws, hbr]

theorem parseValue_obj_go (f : Nat) (c : Char) (t : List Char)
    (hws : isJsonWs c = false) (hbr : c ≠ '}') :
    parseValue (f + 1) ('{' :: c :: t) = parseMembers f (c :: t) [] := by
  simp [parseValue, skipWs_cons_false '{' _ (by decide),
    skipWs_cons_false c t hws, hbr]

/-! ## Lemmas: sizes -/

theorem sizeJ_pos (j : Json) : 1 ≤ sizeJ j := by
  cases j <;> simp [sizeJ]

theorem sizeL_pos (es : List Json) : 1 ≤ sizeL es := by
  cases es <;> simp [sizeL] <;> omega

theorem sizeF_pos (fs : List (List Char × Json)) : 1 ≤ sizeF fs := by
  cases fs with
  | nil => simp [sizeF]
  | cons p t => obtain ⟨k, v⟩ := p; simp [sizeF]; omega

theorem dumpsItems_head (es : List Json) (hne : es ≠ []) (hwf : wfL es = true) :
    ∃ c t, dumpsItems es = c :: t ∧ isJsonWs c = false ∧ c ≠ ']' ∧ c ≠ '}' := by
  cases es with
  | nil => exact absurd rfl hne
  | cons e tl =>
    simp only [wfL, Bool.and_eq_true] at hwf
    obtain ⟨c, t0, he, hws, h1, h2⟩ := dumpsJ_head e hwf.1
    cases tl with
    | nil => exact ⟨c, t0, by simp [dumpsItems, he], hws, h1, h2⟩
    | cons e2 tl2 =>
      exact ⟨c, t0 ++ ',' :: ' ' :: dumpsItems (e2 :: tl2),
        by simp [dumpsItems, he], hws, h1, h2⟩

theorem numStop_cons (c : Char) (r : List Char) (h : isNumChar c = false) :
    numStop (c :: r) := h

/-- Round trip: parsing a serialized well-formed value gives the value
back, consuming exactly its serialization.  The fuel bound `sizeJ` counts
the parser's recursive calls. -/
theorem parse_rt (f : Nat) :
    (∀ j rest, wfJ j = true → sizeJ j ≤ f → numStop rest →
      parseValue f (dumpsJ j ++ rest) = some (j, rest)) ∧
    (∀ es acc rest, wfL es = true → es ≠ [] → sizeL es ≤ f →
      parseItems f (dumpsItems es ++ ']' :: rest) acc = some (.arr (acc ++ es), rest)) ∧
    (∀ fs acc rest, wfF fs = true → fs ≠ [] → sizeF fs ≤ f →
      (∀ k v, (k, v) ∈ fs → hasKey acc k = false) →
      parseMembers f (dumpsMembers fs ++ '}' :: rest) acc =
        some (.obj (acc ++ fs), rest)) := by
  induction f with
  | zero =>
    refine ⟨fun j _ _ hsz _ => absurd hsz ?_, fun es _ _ _ _ hsz => absurd hsz ?_,
      fun fs _ _ _ _ hsz _ => absurd hsz ?_⟩
    · have := sizeJ_pos j; omega
    · have := sizeL_pos es; omega
    · have := sizeF_pos fs; omega
  | succ f ih =>
    obtain ⟨ihA, ihB, ihC⟩ := ih
    refine ⟨?_, ?_, ?_⟩
    · -- values
      intro j rest hwf hsz hrest
      cases j with
      | null =>
        have e : dumpsJ Json.null ++ rest = 'n' :: 'u' :: 'l' :: 'l' :: rest := by
          simp [dumpsJ, toL]
        rw [e, parseValue_null]
      | bool b =>
        cases b with
        | false =>
          have e : dumpsJ (Json.bool false) ++ rest =
              'f' :: 'a' :: 'l' :: 's' :: 'e' :: rest := by simp [dumpsJ, toL]
          rw [e, parseValue_false]
        | true =>
          have e : dumpsJ (Json.bool true) ++ rest =
              't' :: 'r' :: 'u' :: 'e' :: rest := by simp [dumpsJ, toL]
          rw [e, parseValue_true]
      | num lex =>
        simp only [wfJ] at hwf
        simp only [wfNum, Bool.or_eq_true, decide_eq_true_eq] at hwf
        rcases hwf with ((hv | hNaN) | hInf) | hnInf
        · have e : dumpsJ (Json.num lex) = lex := by simp [dumpsJ]
          rw [e, parseValue_num f lex rest hv hrest]
        · subst hNaN
          have e : dumpsJ (Json.num (toL "NaN")) ++ rest = 'N' :: 'a' :: 'N' :: rest := by
            simp [dumpsJ, toL]
          rw [e, parseValue_nan]
        · subst hInf
          have e : dumpsJ (Json.num (toL "Infinity")) ++ rest =
              'I' :: 'n' :: 'f' :: 'i' :: 'n' :: 'i' :: 't' :: 'y' :: rest := by
            simp [dumpsJ, toL]
          rw [e, parseValue_inf]
        · subst hnInf
          have e : dumpsJ (Json.num (toL "-Infinity")) ++ rest =
              '-' :: 'I' :: 'n' :: 'f' :: 'i' :: 'n' :: 'i' :: 't' :: 'y' :: rest := by
            simp [dumpsJ, toL]
          rw [e, parseValue_ninf]
      | str s =>
        have e : dumpsJ (Json.str s) ++ rest = '"' :: (encBody s ++ '"' :: rest) := by
          simp [dumpsJ, encodeStr]
        rw [e, parseValue_str]
      | arr es =>
        cases es with
        | nil =>
          have e : dumpsJ (Json.arr []) ++ rest = '[' :: ']' :: rest := by
            simp [dumpsJ, dumpsItems]
          rw [e, parseValue_arr_nil]
        | cons e0 tl =>
          simp only [wfJ] at hwf
          obtain ⟨c, t0, hd, hws, hbr, _⟩ :=
            dumpsItems_head (e0 :: tl) (by simp) hwf
          have e : dumpsJ (Json.arr (e0 :: tl)) ++ rest =
              '[' :: c :: (t0 ++ ']' :: rest) := by simp [dumpsJ, hd]
          rw [e, parseValue_arr_go f c _ hws hbr]
          have e2 : c :: (t0 ++ ']' :: rest) = dumpsItems (e0 :: tl) ++ ']' :: rest := by
            simp [hd]
          rw [e2]
          have hsz2 : sizeL (e0 :: tl) ≤ f := by simp only [sizeJ] at hsz; omega
          simpa using ihB (e0 :: tl) [] rest hwf (by simp) hsz2
      | obj fs =>
        cases fs with
        | nil =>
          have e : dumpsJ (Json.obj []) ++ rest = '{' :: '}' :: rest := by
            simp [dumpsJ, dumpsMembers]
          rw [e, parseValue_obj_nil]
        | cons p tl =>
          obtain ⟨k, v⟩ := p
          simp only [wfJ] at hwf
          obtain ⟨t0, hd⟩ := dumpsMembers_head k v tl
          have e : dumpsJ (Json.obj ((k, v) :: tl)) ++ rest =
              '{' :: '"' :: (t0 ++ '}' :: rest) := by simp [dumpsJ, hd]
          rw [e, parseValue_obj_go f '"' _ (by decide) (by decide)]
          have e2 : '"' :: (t0 ++ '}' :: rest) =
              dumpsMembers ((k, v) :: tl) ++ '}' :: rest := by simp [hd]
          rw [e2]
          have hsz2 : sizeF ((k, v) :: tl) ≤ f := by simp only [sizeJ] at hsz; omega
          simpa using ihC ((k, v) :: tl) [] rest hwf (by simp) hsz2
            (fun _ _ _ => rfl)
    · -- array items
      intro es acc rest hwf hne hsz
      cases es with
      | nil => exact absurd rfl hne
      | cons e0 tl =>
        simp only [wfL, Bool.and_eq_true] at hwf
        obtain ⟨hwfe, hwftl⟩ := hwf
        cases tl with
        | nil =>
          have e : dumpsItems [e0] ++ ']' :: rest = dumpsJ e0 ++ ']' :: rest := by
            simp [dumpsItems]
          rw [e]
          simp only [parseItems]
          rw [ihA e0 (']' :: rest) hwfe (by simp only [sizeL] at hsz; omega)
            (numStop_cons ']' rest (by decide))]
          simp [skipWs_cons_false ']' rest (by decide)]
        | cons e1 tl2 =>
          have e : dumpsItems (e0 :: e1 :: tl2) ++ ']' :: rest =
              dumpsJ e0 ++ (',' :: ' ' :: (dumpsItems (e1 :: tl2) ++ ']' :: rest)) := by
            simp [dumpsItems]
          rw [e]
          simp only [parseItems]
          rw [ihA e0 _ hwfe (by simp only [sizeL] at hsz; omega)
            (numStop_cons ',' _ (by decide))]
          obtain ⟨c, t0, hd, hws, _, _⟩ := dumpsItems_head (e1 :: tl2) (by simp) hwftl
          have hs1 : skipWs (' ' :: (dumpsItems (e1 :: tl2) ++ ']' :: rest)) =
              dumpsItems (e1 :: tl2) ++ ']' :: rest := by
            rw [skipWs_space, show dumpsItems (e1 :: tl2) ++ ']' :: rest =
              c :: (t0 ++ ']' :: rest) by simp [hd], skipWs_cons_false c _ hws]
          have hrec := ihB (e1 :: tl2) (acc ++ [e0]) rest hwftl (by simp)
            (by simp only [sizeL] at hsz ⊢; omega)
          simp [skipWs_cons_false ',' _ (by decide), hs1, hrec]
    · -- object members
      intro fs acc rest hwf hne hsz hdis
      cases fs with
      | nil => exact absurd rfl hne
      | cons p tl =>
        obtain ⟨k, v⟩ := p
        simp only [wfF, Bool.and_eq_true] at hwf
        obtain ⟨⟨hkey0, hwv⟩, hwtl⟩ := hwf
        have hkey : hasKey tl k = false := by simpa using hkey0
        have hkb := length_le_encBody k
        have hacc : hasKey acc k = false := hdis k v (by simp)
        obtain ⟨c0, t0, hd0, hws0, _, _⟩ := dumpsJ_head v hwv
        cases tl with
        | nil =>
          have e : dumpsMembers [(k, v)] ++ '}' :: rest =
              '"' :: (encBody k ++ '"' :: (':' :: ' ' :: (dumpsJ v ++ '}' :: rest))) := by
            simp [dumpsMembers, encodeStr]
          rw [e]
          simp only [parseMembers]
          rw [parseStringBody_enc k _ _ (by simp; omega)]
          have hs1 : skipWs (' ' :: (dumpsJ v ++ '}' :: rest)) =
              dumpsJ v ++ '}' :: rest := by
            rw [skipWs_space, show dumpsJ v ++ '}' :: rest =
              c0 :: (t0 ++ '}' :: rest) by simp [hd0], skipWs_cons_false c0 _ hws0]
          have hv1 := ihA v ('}' :: rest) hwv (by simp only [sizeF] at hsz; omega)
            (numStop_cons '}' _ (by decide))
          simp [skipWs_cons_false ':' _ (by decide), hs1, hv1,
            skipWs_cons_false '}' _ (by decide), insertKey_not_has acc k v hacc]
        | cons p2 tl2 =>
          obtain ⟨k2, v2⟩ := p2
          have e : dumpsMembers ((k, v) :: (k2, v2) :: tl2) ++ '}' :: rest =
              '"' :: (encBody k ++ '"' :: (':' :: ' ' :: (dumpsJ v ++
                ',' :: ' ' :: (dumpsMembers ((k2, v2) :: tl2) ++ '}' :: rest)))) := by
            simp [dumpsMembers, encodeStr]
          rw [e]
          simp only [parseMembers]
          rw [parseStringBody_enc k _ _ (by simp; omega)]
          have hs1 : skipWs (' ' :: (dumpsJ v ++ ',' :: ' ' ::
              (dumpsMembers ((k2, v2) :: tl2) ++ '}' :: rest))) =
              dumpsJ v ++ ',' :: ' ' ::
                (dumpsMembers ((k2, v2) :: tl2) ++ '}' :: rest) := by
            rw [skipWs_space, show dumpsJ v ++ ',' :: ' ' ::
              (dumpsMembers ((k2, v2) :: tl2) ++ '}' :: rest) = c0 :: (t0 ++ ',' :: ' ' ::
              (dumpsMembers ((k2, v2) :: tl2) ++ '}' :: rest)) by simp [hd0],
              skipWs_cons_false c0 _ hws0]
          have hv1 := ihA v (',' :: ' ' ::
              (dumpsMembers ((k2, v2) :: tl2) ++ '}' :: rest)) hwv
            (by simp only [sizeF] at hsz; omega) (numStop_cons ',' _ (by decide))
          obtain ⟨t1, hd1⟩ := dumpsMembers_head k2 v2 tl2
          have hs2 : skipWs (' ' :: (dumpsMembers ((k2, v2) :: tl2) ++ '}' :: rest)) =
              dumpsMembers ((k2, v2) :: tl2) ++ '}' :: rest := by
            rw [skipWs_space, show dumpsMembers ((k2, v2) :: tl2) ++ '}' :: rest =
              '"' :: (t1 ++ '}' :: rest) by simp [hd1],
              skipWs_cons_false '"' _ (by decide)]
          have hdis2 : ∀ k3 v3, (k3, v3) ∈ (k2, v2) :: tl2 →
              hasKey (acc ++ [(k, v)]) k3 = false := by
            intro k3 v3 hm
            rw [hasKey_append_one]
            have h1 : hasKey acc k3 = false := hdis k3 v3 (List.mem_cons_of_mem _ hm)
            have h2 : k3 ≠ k := mem_of_hasKey_false _ k k3 v3 hkey hm
            simp [h1, Ne.symm h2]
          have hrec := ihC ((k2, v2) :: tl2) (acc ++ [(k, v)]) rest hwtl (by simp)
            (by simp only [sizeF] at hsz ⊢; omega) hdis2
          simp [skipWs_cons_false ':' _ (by decide), hs1, hv1,
            skipWs_cons_false ',' _ (by decide), hs2,
            insertKey_not_has acc k v hacc, hrec]

/-! ## A mutual induction principle for JSON values -/

theorem jsonInd (PJ : Json → Prop) (PL : List Json → Prop)
    (PF : List (List Char × Json) → Prop)
    (h1 : PJ .null) (h2 : ∀ b, PJ (.bool b)) (h3 : ∀ lex, PJ (.num lex))
    (h4 : ∀ s, PJ (.str s))
    (h5 : ∀ es, PL es → PJ (.arr es)) (h6 : ∀ fs, PF fs → PJ (.obj fs))
    (h7 : PL []) (h8 : ∀ e tl, PJ e → PL tl → PL (e :: tl))
    (h9 : PF []) (h10 : ∀ k v tl, PJ v → PF tl → PF ((k, v) :: tl)) :
    (∀ j, PJ j) ∧ (∀ es, PL es) ∧ (∀ fs, PF fs) := by
  have key : ∀ n, (∀ j, sizeJ j ≤ n → PJ j) ∧ (∀ es, sizeL es ≤ n → PL es) ∧
      (∀ fs, sizeF fs ≤ n → PF fs) := by
    intro n
    induction n with
    | zero =>
      refine ⟨fun j h => absurd h ?_, fun es h => absurd h ?_, fun fs h => absurd h ?_⟩
      · have := sizeJ_pos j; omega
      · have := sizeL_pos es; omega
      · have := sizeF_pos fs; omega
    | succ n ih =>
      obtain ⟨ihJ, ihL, ihF⟩ := ih
      refine ⟨?_, ?_, ?_⟩
      · intro j hs
        cases j with
        | null => exact h1
        | bool b => exact h2 b
        | num lex => exact h3 lex
        | str s => exact h4 s
        | arr es => exact h5 es (ihL es (by simp only [sizeJ] at hs; omega))
        | obj fs => exact h6 fs (ihF fs (by simp only [sizeJ] at hs; omega))
      · intro es hs
        cases es with
        | nil => exact h7
        | cons e tl =>
          have hp1 := sizeL_pos tl
          have hp2 := sizeJ_pos e
          simp only [sizeL] at hs
          exact h8 e tl (ihJ e (by omega)) (ihL tl (by omega))
      · intro fs hs
        cases fs with
        | nil => exact h9
        | cons p tl =>
          obtain ⟨k, v⟩ := p
          have hp1 := sizeF_pos tl
          have hp2 := sizeJ_pos v
          simp only [sizeF] at hs
          exact h10 k v tl (ihJ v (by omega)) (ihF tl (by omega))
  exact ⟨fun j => (key (sizeJ j)).1 j le_rfl, fun es => (key (sizeL es)).2.1 es le_rfl,
    fun fs => (key (sizeF fs)).2.2 fs le_rfl⟩

/-! ## Character and length bounds of serialization -/

theorem hexDigit_ge : ∀ n, n < 16 → 32 ≤ (hexDigit n).toNat := by decide

theorem encodeChar_ge20 (c : Char) : ∀ x ∈ encodeChar c, 32 ≤ x.toNat := by
  intro x hx
  unfold encodeChar at hx
  split_ifs at hx with h1 h2 h3 h4 h5 h6 h7 h8
  all_goals simp only [List.mem_cons, List.not_mem_nil, or_false] at hx
  · rcases hx with hx | hx <;> (subst hx; decide)
  · rcases hx with hx | hx <;> (subst hx; decide)
  · rcases hx with hx | hx <;> (subst hx; decide)
  · rcases hx with hx | hx <;> (subst hx; decide)
  · rcases hx with hx | hx <;> (subst hx; decide)
  · rcases hx with hx | hx <;> (subst hx; decide)
  · rcases hx with hx | hx <;> (subst hx; decide)
  · rcases hx with hx | hx | hx | hx | hx | hx
    · subst hx; decide
    · subst hx; decide
    · subst hx; decide
    · subst hx; decide
    · subst hx; exact hexDigit_ge _ (by omega)
    · subst hx; exact hexDigit_ge _ (by omega)
  · subst hx; omega

theorem encBody_ge20 (s : List Char) : ∀ x ∈ encBody s, 32 ≤ x.toNat := by
  induction s with
  | nil => intro x hx; simp [encBody] at hx
  | cons c t ih =>
    intro x hx
    simp only [encBody] at hx
    rcases List.mem_append.mp hx with hx | hx
    · exact encodeChar_ge20 c x hx
    · exact ih x hx

theorem isNumChar_ge20 (c : Char) (h : isNumChar c = true) : 32 ≤ c.toNat := by
  simp only [isNumChar, Bool.or_eq_true, decide_eq_true_eq] at h
  rcases h with ((((hd | hd) | hd) | hd) | hd) | hd
  · exact (isDigit_toNat c hd).1.trans' (by omega)
  all_goals (subst hd; decide)

theorem wfNum_ge20 (lex : List Char) (h : wfNum lex = true) :
    ∀ c ∈ lex, 32 ≤ c.toNat := by
  simp only [wfNum, Bool.or_eq_true, decide_eq_true_eq] at h
  rcases h with ((h | h) | h) | h
  · intro c hc
    have := validNum_all lex h
    simp only [List.all_eq_true] at this
    exact isNumChar_ge20 c (this c hc)
  all_goals (subst h; intro c hc; revert c; decide)

/-- Serialized well-formed values contain no character below U+0020 (in
particular no newline and no carriage return), and the parser fuel bound
holds: `sizeJ j < 2·|dumpsJ j|`. -/
theorem dumps_bounds :
    (∀ j, wfJ j = true →
      (∀ c ∈ dumpsJ j, 32 ≤ c.toNat) ∧ sizeJ j + 1 ≤ 2 * (dumpsJ j).length) ∧
    (∀ es, wfL es = true →
      (∀ c ∈ dumpsItems es, 32 ≤ c.toNat) ∧
        (es ≠ [] → sizeL es ≤ 2 * (dumpsItems es).length + 1)) ∧
    (∀ fs, wfF fs = true →
      (∀ c ∈ dumpsMembers fs, 32 ≤ c.toNat) ∧
        (fs ≠ [] → sizeF fs ≤ 2 * (dumpsMembers fs).length + 1)) := by
  refine jsonInd _ _ _ ?_ ?_ ?_ ?_ ?_ ?_ ?_ ?_ ?_ ?_
  · exact fun _ => ⟨by simp [dumpsJ]; decide, by simp [dumpsJ, sizeJ, toL]⟩
  · intro b _
    cases b
    · exact ⟨by simp [dumpsJ]; decide, by simp [dumpsJ, sizeJ, toL]⟩
    · exact ⟨by simp [dumpsJ]; decide, by simp [dumpsJ, sizeJ, toL]⟩
  · intro lex h
    simp only [wfJ] at h
    have hne := wfNum_nonempty lex h
    have hlen : 1 ≤ lex.length := by
      cases lex with
      | nil => exact absurd rfl hne
      | cons c t => simp
    refine ⟨by simpa [dumpsJ] using wfNum_ge20 lex h, ?_⟩
    simp only [dumpsJ, sizeJ]
    omega
  · intro s _
    refine ⟨?_, by simp [dumpsJ, sizeJ, encodeStr]⟩
    simp only [dumpsJ, encodeStr]
    intro c hc
    rcases List.mem_cons.mp hc with hc | hc
    · subst hc; decide
    rcases List.mem_append.mp hc with hc | hc
    · exact encBody_ge20 s c hc
    · rw [List.mem_singleton] at hc; subst hc; decide
  · intro es ihes h
    simp only [wfJ] at h
    obtain ⟨hc, hsz⟩ := ihes h
    refine ⟨?_, ?_⟩
    · simp only [dumpsJ]
      intro c hcm
      rcases List.mem_cons.mp hcm with hcm | hcm
      · subst hcm; decide
      rcases List.mem_append.mp hcm with hcm | hcm
      · exact hc c hcm
      · rw [List.mem_singleton] at hcm; subst hcm; decide
    · cases es with
      | nil => simp [sizeJ, sizeL, dumpsJ, dumpsItems]
      | cons e tl =>
        have := hsz (by simp)
        simp only [dumpsJ, sizeJ, List.length_cons, List.length_append]
        omega
  · intro fs ihfs h
    simp only [wfJ] at h
    obtain ⟨hc, hsz⟩ := ihfs h
    refine ⟨?_, ?_⟩
    · simp only [dumpsJ]
      intro c hcm
      rcases List.mem_cons.mp hcm with hcm | hcm
      · subst hcm; decide
      rcases List.mem_append.mp hcm with hcm | hcm
      · exact hc c hcm
      · rw [List.mem_singleton] at hcm; subst hcm; decide
    · cases fs with
      | nil => simp [sizeJ, sizeF, dumpsJ, dumpsMembers]
      | cons p tl =>
        have := hsz (by simp)
        simp only [dumpsJ, sizeJ, List.length_cons, List.length_append]
        omega
  · exact fun _ => ⟨by simp [dumpsItems], fun h => absurd rfl h⟩
  · intro e tl ihe ihtl h
    simp only [wfL, Bool.and_eq_true] at h
    obtain ⟨he, htl⟩ := h
    obtain ⟨hec, hesz⟩ := ihe he
    obtain ⟨htc, htsz⟩ := ihtl htl
    cases tl with
    | nil =>
      refine ⟨by simpa [dumpsItems] using hec, ?_⟩
      intro _
      simp only [dumpsItems, sizeL]
      omega
    | cons e2 tl2 =>
      refine ⟨?_, ?_⟩
      · simp only [dumpsItems]
        intro c hcm
        rcases List.mem_append.mp hcm with hcm | hcm
        · exact hec c hcm
        rcases List.mem_cons.mp hcm with hcm | hcm
        · subst hcm; decide
        rcases List.mem_cons.mp hcm with hcm | hcm
        · subst hcm; decide
        · exact htc c hcm
      · intro _
        have h2 := htsz (by simp)
        simp only [dumpsItems, sizeL, List.length_append, List.length_cons]
        simp only [sizeL] at h2
        omega
  · exact fun _ => ⟨by simp [dumpsMembers], fun h => absurd rfl h⟩
  · intro k v tl ihv ihtl h
    simp only [wfF, Bool.and_eq_true] at h
    obtain ⟨⟨hk, hv⟩, htl⟩ := h
    obtain ⟨hvc, hvsz⟩ := ihv hv
    obtain ⟨htc, htsz⟩ := ihtl htl
    have hkc : ∀ c ∈ encodeStr k, 32 ≤ c.toNat := by
      simp only [encodeStr]
      intro c hcm
      rcases List.mem_cons.mp hcm with hcm | hcm
      · subst hcm; decide
      rcases List.mem_append.mp hcm with hcm | hcm
      · exact encBody_ge20 k c hcm
      · rw [List.mem_singleton] at hcm; subst hcm; decide
    cases tl with
    | nil =>
      refine ⟨?_, ?_⟩
      · simp only [dumpsMembers]
        intro c hcm
        rcases List.mem_append.mp hcm with hcm | hcm
        · exact hkc c hcm
        rcases List.mem_cons.mp hcm with hcm | hcm
        · subst hcm; decide
        rcases List.mem_cons.mp hcm with hcm | hcm
        · subst hcm; decide
        · exact hvc c hcm
      · intro _
        simp only [dumpsMembers, sizeF, List.length_append, List.length_cons,
          encodeStr]
        omega
    | cons p2 tl2 =>
      refine ⟨?_, ?_⟩
      · simp only [dumpsMembers]
        intro c hcm
        rcases List.mem_append.mp hcm with hcm | hcm
        · rcases List.mem_append.mp hcm with hcm | hcm
          · exact hkc c hcm
          rcases List.mem_cons.mp hcm with hcm | hcm
          · subst hcm; decide
          rcases List.mem_cons.mp hcm with hcm | hcm
          · subst hcm; decide
          · exact hvc c hcm
        · rcases List.mem_cons.mp hcm with hcm | hcm
          · subst hcm; decide
          rcases List.mem_cons.mp hcm with hcm | hcm
          · subst hcm; decide
          · exact htc c hcm
      · intro _
        have h2 := htsz (by simp)
        simp only [dumpsMembers, sizeF, List.length_append, List.length_cons,
          encodeStr] at h2 ⊢
        omega

/-! ## Lemmas: parser outputs are well formed -/

theorem wfL_append (acc : List Json) (v : Json) (ha : wfL acc = true)
    (hv : wfJ v = true) : wfL (acc ++ [v]) = true := by
  induction acc with
  | nil => simp [wfL, hv]
  | cons e t ih =>
    simp only [wfL, Bool.and_eq_true] at ha
    simp only [List.cons_append, wfL, Bool.and_eq_true]
    exact ⟨ha.1, ih ha.2⟩

theorem hasKey_insertKey (t : List (List Char × Json)) (k : List Char) (v : Json)
    (k' : List Char) :
    hasKey (insertKey t k v) k' = (hasKey t k' || decide (k = k')) := by
  induction t with
  | nil => simp [insertKey, hasKey]
  | cons p t ih =>
    obtain ⟨k0, v0⟩ := p
    simp only [insertKey]
    by_cases hk : k0 = k
    · subst hk
      rw [if_pos rfl]
      simp only [hasKey, List.any_cons] at *
      cases hd : decide (k0 = k') <;> simp [hd]
    · rw [if_neg hk]
      simp only [hasKey, List.any_cons] at ih ⊢
      rw [ih, Bool.or_assoc]

theorem insertKey_wfF (acc : List (List Char × Json)) (k : List Char) (v : Json)
    (ha : wfF acc = true) (hv : wfJ v = true) : wfF (insertKey acc k v) = true := by
  induction acc with
  | nil => simp [insertKey, wfF, hasKey, hv]
  | cons p t ih =>
    obtain ⟨k0, v0⟩ := p
    simp only [wfF, Bool.and_eq_true] at ha
    obtain ⟨⟨h1, h2⟩, h3⟩ := ha
    simp only [insertKey]
    by_cases hk : k0 = k
    · rw [if_pos hk]
      simp only [wfF, Bool.and_eq_true]
      exact ⟨⟨h1, hv⟩, h3⟩
    · rw [if_neg hk]
      simp only [wfF, Bool.and_eq_true]
      refine ⟨⟨?_, h2⟩, ih h3⟩
      have e1 : hasKey t k0 = false := by simpa using h1
      simp [hasKey_insertKey, e1, Ne.symm hk]

set_option maxHeartbeats 1000000 in
/-- Everything `json.loads` can return is well formed: number lexemes match
the grammar and objects have distinct keys. -/
theorem parse_sound (f : Nat) :
    (∀ s j r, parseValue f s = some (j, r) → wfJ j = true) ∧
    (∀ s acc j r, wfL acc = true → parseItems f s acc = some (j, r) → wfJ j = true) ∧
    (∀ s acc j r, wfF acc = true → parseMembers f s acc = some (j, r) →
      wfJ j = true) := by
  induction f with
  | zero =>
    refine ⟨fun s j r h => ?_, fun s acc j r _ h => ?_, fun s acc j r _ h => ?_⟩
    · rw [show parseValue 0 s = none from rfl] at h; exact Option.noConfusion h
    · rw [show parseItems 0 s acc = none from rfl] at h; exact Option.noConfusion h
    · rw [show parseMembers 0 s acc = none from rfl] at h; exact Option.noConfusion h
  | succ f ih =>
    obtain ⟨ihA, ihB, ihC⟩ := ih
    refine ⟨?_, ?_, ?_⟩
    · intro s j r h
      simp only [parseValue] at h
      cases hss : skipWs s with
      | nil => rw [hss] at h; exact Option.noConfusion h
      | cons c t =>
        rw [hss] at h
        split at h
        next heq => exact absurd heq (List.cons_ne_nil c t)
        next c2 t2 heq =>
          split_ifs at h with h1 h2 h3 h4 h5 h6 h7 h8 h9 h10 h11 h12 h13 h14 h15 h16
          all_goals try exact Option.noConfusion h
          all_goals try (cases h; decide)
          · -- string literal
            rcases hps : parseStringBody (t2.length + 1) t2 with _ | ⟨s2, r2⟩ <;>
              rw [hps] at h
            · exact Option.noConfusion h
            · cases h; rfl
          · -- object members
            split at h
            · cases h; rfl
            · exact ihC _ [] j r rfl h
          · -- array items
            split at h
            · cases h; rfl
            · exact ihB _ [] j r rfl h
          · -- number after '-'
            simp only [parseNumber] at h
            split_ifs at h with hval
            cases h; simp [wfJ, wfNum, hval]
          · -- number after a digit
            simp only [parseNumber] at h
            split_ifs at h with hval
            cases h; simp [wfJ, wfNum, hval]
    · intro s acc j r hacc h
      simp only [parseItems] at h
      split at h
      next hpv => exact Option.noConfusion h
      next v r1 hpv =>
        have hv : wfJ v = true := ihA _ _ _ hpv
        have hacc2 : wfL (acc ++ [v]) = true := wfL_append acc v hacc hv
        split at h
        next r2 heq2 => exact ihB _ _ _ _ hacc2 h
        next r2 heq2 => cases h; simpa [wfJ] using hacc2
        next => exact Option.noConfusion h
    · intro s acc j r hacc h
      simp only [parseMembers] at h
      split at h
      next t heq =>
        split at h
        next hps => exact Option.noConfusion h
        next k r1 hps =>
          split at h
          next r2 heq2 =>
            split at h
            next hpv => exact Option.noConfusion h
            next v r3 hpv =>
              have hv : wfJ v = true := ihA _ _ _ hpv
              have hacc2 : wfF (insertKey acc k v) = true :=
                insertKey_wfF acc k v hacc hv
              split at h
              next r4 heq3 => exact ihC _ _ _ _ hacc2 h
              next r4 heq3 => cases h; simpa [wfJ] using hacc2
              next => exact Option.noConfusion h
          next => exact Option.noConfusion h
      next => exact Option.noConfusion h

/-! ## json.loads round trip on serialized values -/

theorem pyLoads_dumpsJ (j : Json) (h : wfJ j = true) : pyLoads (dumpsJ j) = some j := by
  have hb := ((dumps_bounds).1 j h).2
  have hrt := (parse_rt (2 * (dumpsJ j).length + 4)).1 j [] h (by omega) trivial
  rw [List.append_nil] at hrt
  unfold pyLoads
  rw [hrt]
  simp [skipWs]

theorem pyLoads_sound (line : List Char) (j : Json) (h : pyLoads line = some j) :
    wfJ j = true := by
  unfold pyLoads at h
  split at h
  next j2 rest hpv =>
    split_ifs at h with hr
    cases h
    exact (parse_sound _).1 _ _ _ hpv
  next => exact Option.noConfusion h

/-! ## The JSON line written for a post -/

theorem wf_postObj (p : Post) (hp : wfPost p) :
    wfJ (Json.obj [(toL "title", p.title), (toL "content", p.content)]) = true := by
  have hne : toL "content" ≠ toL "title" := by decide
  simp [wfJ, wfF, hasKey, hp.1, hp.2, hne]

theorem jsonStep_postLine (p : Post) (hp : wfPost p) :
    jsonStep (postLine p) = some p := by
  unfold jsonStep postLine
  rw [pyLoads_dumpsJ _ (wf_postObj p hp)]
  have h1 : hasKey [(toL "title", p.title), (toL "content", p.content)]
      (toL "title") = true := by simp [hasKey]
  have h2 : hasKey [(toL "title", p.title), (toL "content", p.content)]
      (toL "content") = true := by simp [hasKey]
  have h3 : lookupKey [(toL "title", p.title), (toL "content", p.content)]
      (toL "title") = p.title := by simp [lookupKey, List.find?]
  have h4 : lookupKey [(toL "title", p.title), (toL "content", p.content)]
      (toL "content") = p.content := by
    have hd : decide (toL "title" = toL "content") = false := by decide
    simp [lookupKey, List.find?, hd]
  simp [h1, h2, h3, h4]

theorem pyIsSpace_ge32 (c : Char) (h : 33 ≤ c.toNat) (h2 : c.toNat ≤ 0x84) :
    pyIsSpace c = false := by
  simp only [pyIsSpace, Bool.or_eq_false_iff, Bool.and_eq_false_iff,
    decide_eq_false_iff_not]
  omega

theorem pyStrip_of_ends (c d : Char) (l : List Char) (hc : pyIsSpace c = false)
    (hd : pyIsSpace d = false) : pyStrip (c :: l ++ [d]) = c :: l ++ [d] := by
  unfold pyStrip
  rw [show (c :: l ++ [d] : List Char) = c :: (l ++ [d]) from rfl]
  rw [List.dropWhile_cons, if_neg (by simp [hc])]
  rw [show (c :: (l ++ [d]) : List Char).reverse = d :: (c :: l).reverse from by
    simp]
  rw [List.dropWhile_cons, if_neg (by simp [hd])]
  simp

theorem postLine_shape (p : Post) : ∃ m, postLine p = '{' :: m ++ ['}'] := by
  refine ⟨dumpsMembers [(toL "title", p.title), (toL "content", p.content)], ?_⟩
  simp [postLine, dumpsJ]

theorem pyStrip_postLine (p : Post) : pyStrip (postLine p) = postLine p := by
  obtain ⟨m, hm⟩ := postLine_shape p
  rw [hm]
  exact pyStrip_of_ends '{' '}' m (by decide) (by decide)

theorem postLine_chars (p : Post) (hp : wfPost p) :
    ∀ c ∈ postLine p, 32 ≤ c.toNat :=
  (dumps_bounds.1 _ (wf_postObj p hp)).1

theorem processLine_postLine (posts : List Post) (p : Post) (hp : wfPost p) :
    processLine posts (postLine p) = posts ++ [p] := by
  unfold processLine
  rw [pyStrip_postLine]
  obtain ⟨m, hm⟩ := postLine_shape p
  rw [if_neg (by simp [hm])]
  rw [jsonStep_postLine p hp]

theorem processLine_nil (posts : List Post) : processLine posts [] = posts := rfl

/-! ## Lemmas: lines of a file -/

theorem splitLines_ne_nil (l : List Char) : splitLines l ≠ [] := by
  cases l with
  | nil => simp [splitLines]
  | cons c t =>
    simp only [splitLines]
    split <;> simp

theorem splitLines_append (a b : List Char) :
    splitLines (a ++ '\n' :: b) = splitLines a ++ splitLines b := by
  induction a with
  | nil => simp [splitLines]
  | cons c t ih =>
    by_cases hc : c = '\n'
    · subst hc
      simp [splitLines, ih]
    · obtain ⟨l0, ls, hL⟩ := List.exists_cons_of_ne_nil (splitLines_ne_nil t)
      simp [splitLines, hc, ih, hL]

theorem splitLines_no_nl (l : List Char) (h : '\n' ∉ l) : splitLines l = [l] := by
  induction l with
  | nil => rfl
  | cons c t ih =>
    simp only [List.mem_cons, not_or] at h
    have hc : ¬(c = '\n') := fun e => h.1 e.symm
    simp [splitLines, hc, ih h.2]

theorem normNewlines_cons_ne (c : Char) (t : List Char) (hc : c ≠ '\r') :
    normNewlines (c :: t) = c :: normNewlines t := by
  rw [normNewlines.eq_def]
  simp only []
  rw [if_neg hc]

theorem normNewlines_eq_self (l : List Char) (h : '\r' ∉ l) : normNewlines l = l := by
  induction l with
  | nil => rfl
  | cons c t ih =>
    simp only [List.mem_cons, not_or] at h
    have hc : c ≠ '\r' := fun e => h.1 e.symm
    rw [normNewlines_cons_ne c t hc, ih h.2]

/-- The per-line result of the loader loop: the post a line contributes,
if any. -/
def lineToPost (raw : List Char) : Option Post :=
  if pyStrip raw = [] then none
  else
    match jsonStep (pyStrip raw) with
    | some p => some p
    | none =>
      match splitFirstDelim (pyStrip raw) with
      | some (t, c) => some (strPost t c)
      | none => none

theorem processLine_eq (posts : List Post) (raw : List Char) :
    processLine posts raw = posts ++ (lineToPost raw).toList := by
  unfold processLine lineToPost
  by_cases h : pyStrip raw = []
  · simp [h]
  · rw [if_neg h, if_neg h]
    cases hj : jsonStep (pyStrip raw) with
    | some p => simp
    | none =>
      cases hs : splitFirstDelim (pyStrip raw) with
      | none => simp
      | some q => obtain ⟨t, c⟩ := q; simp

theorem foldl_processLine (lines : List (List Char)) (acc : List Post) :
    lines.foldl processLine acc = acc ++ lines.filterMap lineToPost := by
  induction lines generalizing acc with
  | nil => simp
  | cons l ls ih =>
    simp only [List.foldl_cons, List.filterMap_cons]
    rw [ih, processLine_eq]
    cases h : lineToPost l with
    | none => simp
    | some p => simp

/-- `load_posts` processes the file's lines independently and in order. -/
theorem load_posts_filterMap (raw : List Char) :
    load_posts (some raw) = (fileLines raw).filterMap lineToPost := by
  rw [show load_posts (some raw) = (fileLines raw).foldl processLine [] from rfl]
  rw [foldl_processLine]
  simp

/-! ## load after save_all -/

theorem fileLines_saveAll (ps : List Post) (hps : ∀ p ∈ ps, wfPost p) :
    fileLines ((ps.map (fun p => postLine p ++ ['\n'])).flatten) =
      ps.map postLine ++ [[]] := by
  have hnr : '\r' ∉ (ps.map (fun p => postLine p ++ ['\n'])).flatten := by
    intro hmem
    rw [List.mem_flatten] at hmem
    obtain ⟨l, hl, hcl⟩ := hmem
    rw [List.mem_map] at hl
    obtain ⟨p, hpmem, rfl⟩ := hl
    rcases List.mem_append.mp hcl with hcl | hcl
    · have := postLine_chars p (hps p hpmem) _ hcl
      simp at this
    · simp at hcl
  unfold fileLines
  rw [normNewlines_eq_self _ hnr]
  clear hnr
  induction ps with
  | nil => rfl
  | cons p tl ih =>
    have hnl : '\n' ∉ postLine p := by
      intro hmem
      have := postLine_chars p (hps p (by simp)) _ hmem
      simp at this
    simp only [List.map_cons, List.flatten_cons]
    rw [show (postLine p ++ ['\n']) ++ (tl.map (fun p => postLine p ++ ['\n'])).flatten
      = postLine p ++ '\n' :: (tl.map (fun p => postLine p ++ ['\n'])).flatten by simp]
    rw [splitLines_append, splitLines_no_nl _ hnl,
      ih (fun q hq => hps q (by simp [hq]))]
    simp

theorem load_posts_saveAll (ps : List Post) (hps : ∀ p ∈ ps, wfPost p) :
    load_posts (save_all_posts ps) = ps := by
  rw [show load_posts (save_all_posts ps) =
    (fileLines ((ps.map (fun p => postLine p ++ ['\n'])).flatten)).foldl
      processLine [] from rfl]
  rw [fileLines_saveAll ps hps]
  have aux : ∀ (qs : List Post) (acc : List Post), (∀ p ∈ qs, wfPost p) →
      (qs.map postLine ++ [[]]).foldl processLine acc = acc ++ qs := by
    intro qs
    induction qs with
    | nil => intro acc _; simp [processLine_nil]
    | cons q tl ih =>
      intro acc hq
      simp only [List.map_cons, List.cons_append, List.foldl_cons]
      rw [processLine_postLine acc q (hq q (by simp))]
      rw [ih _ (fun x hx => hq x (by simp [hx]))]
      simp
  exact aux ps [] hps

/-! ## Every loaded post is well formed -/

theorem lookupKey_wf (fs : List (List Char × Json)) (k : List Char)
    (h : wfF fs = true) : wfJ (lookupKey fs k) = true := by
  induction fs with
  | nil => rfl
  | cons p t ih =>
    obtain ⟨k0, v0⟩ := p
    simp only [wfF, Bool.and_eq_true] at h
    obtain ⟨⟨_, hv⟩, ht⟩ := h
    simp only [lookupKey, List.find?]
    cases hd : decide (k0 = k) with
    | true => simpa using hv
    | false => simpa [lookupKey] using ih ht

theorem jsonStep_wf (line : List Char) (p : Post) (h : jsonStep line = some p) :
    wfPost p := by
  unfold jsonStep at h
  split at h
  next fs hl =>
    split_ifs at h with hk
    cases h
    have hwf : wfF fs = true := by
      have := pyLoads_sound line _ hl
      simpa [wfJ] using this
    exact ⟨lookupKey_wf fs _ hwf, lookupKey_wf fs _ hwf⟩
  next => exact Option.noConfusion h

theorem lineToPost_wf (raw : List Char) (p : Post) (h : lineToPost raw = some p) :
    wfPost p := by
  unfold lineToPost at h
  split_ifs at h with h0
  split at h
  next q hj => cases h; exact jsonStep_wf _ _ hj
  next hj =>
    split at h
    next t c hs => cases h; exact ⟨rfl, rfl⟩
    next => exact Option.noConfusion h

theorem load_posts_wf (st : Option (List Char)) (p : Post)
    (h : p ∈ load_posts st) : wfPost p := by
  cases st with
  | none => simp [load_posts] at h
  | some raw =>
    rw [load_posts_filterMap] at h
    rw [List.mem_filterMap] at h
    obtain ⟨l, _, hl⟩ := h
    exact lineToPost_wf l p hl

/-! ## Appending one JSON line to a newline-terminated file -/

/-- The file states the program's own writers can leave behind: absent,
empty, or newline-terminated text without bare carriage returns.  Both the
legacy writer (`f"{title}|||{content}\n"`) and the JSON writer terminate
every record with `'\n'`. -/
def cleanTail : Option (List Char) → Prop
  | none => True
  | some a => '\r' ∉ a ∧ (a = [] ∨ a.getLast? = some '\n')

theorem loadStr_append_line (a : List Char) (p : Post) (hp : wfPost p)
    (hnc : '\r' ∉ a) (hend : a = [] ∨ a.getLast? = some '\n') :
    (fileLines (a ++ (postLine p ++ ['\n']))).foldl processLine [] =
      (fileLines a).foldl processLine [] ++ [p] := by
  have hnl : '\n' ∉ postLine p := by
    intro hm; have := postLine_chars p hp _ hm; simp at this
  have hnr : '\r' ∉ postLine p := by
    intro hm; have := postLine_chars p hp _ hm; simp at this
  have hline : splitLines (postLine p ++ ['\n']) = [postLine p, []] := by
    rw [show postLine p ++ ['\n'] = postLine p ++ '\n' :: [] from rfl]
    rw [splitLines_append, splitLines_no_nl _ hnl]
    rfl
  rcases hend with rfl | hlast
  · unfold fileLines
    rw [List.nil_append,
      normNewlines_eq_self _ (by
        intro hm
        rcases List.mem_append.mp hm with hm | hm
        · exact hnr hm
        · simp at hm),
      hline]
    rw [show (List.foldl processLine [] (splitLines (normNewlines ([] : List Char))) : List Post) = [] from rfl]
    simp only [List.foldl_cons, List.foldl_nil, processLine_nil]
    rw [processLine_postLine [] p hp]
  · obtain ⟨a', rfl⟩ := List.getLast?_eq_some_iff.mp hlast
    have hnc' : '\r' ∉ a' := fun hm => hnc (List.mem_append.mpr (Or.inl hm))
    unfold fileLines
    rw [normNewlines_eq_self _ (by
        intro hm
        rcases List.mem_append.mp hm with hm | hm
        · exact hnc hm
        rcases List.mem_append.mp hm with hm | hm
        · exact hnr hm
        · simp at hm),
      normNewlines_eq_self _ hnc]
    rw [show (a' ++ ['\n']) ++ (postLine p ++ ['\n']) =
      a' ++ '\n' :: (postLine p ++ ['\n']) by simp]
    rw [splitLines_append, splitLines_append, splitLines_no_nl _ hnl,
      splitLines_append a' []]
    simp only [splitLines, List.foldl_append, List.foldl_cons, List.foldl_nil,
      processLine_nil]
    rw [processLine_postLine _ p hp]

theorem load_create (st : Option (List Char)) (title content : List Char)
    (h : cleanTail st) :
    load_posts (create st title content) =
      load_posts st ++ [strPost (pyStrip title) content] := by
  have hwf : wfPost (strPost (pyStrip title) content) := ⟨rfl, rfl⟩
  cases st with
  | none =>
    rw [show create none title content =
      some ([] ++ (postLine (strPost (pyStrip title) content) ++ ['\n'])) by
        simp [create, save_post]]
    rw [show load_posts (some ([] ++ (postLine (strPost (pyStrip title) content)
      ++ ['\n']))) = (fileLines ([] ++ (postLine (strPost (pyStrip title) content)
      ++ ['\n']))).foldl processLine [] from rfl]
    rw [loadStr_append_line _ _ hwf (by simp) (Or.inl rfl)]
    rfl
  | some a =>
    obtain ⟨hnc, hend⟩ := h
    rw [show create (some a) title content =
      some (a ++ (postLine (strPost (pyStrip title) content) ++ ['\n'])) by
        simp [create, save_post]]
    rw [show load_posts (some (a ++ (postLine (strPost (pyStrip title) content)
      ++ ['\n']))) = (fileLines (a ++ (postLine (strPost (pyStrip title) content)
      ++ ['\n']))).foldl processLine [] from rfl]
    rw [loadStr_append_line _ _ hwf hnc hend]
    rfl

/-! ## Handler-level lemmas -/

theorem detail_none_iff (st : Option (List Char)) (i : Int) :
    detail st i = none ↔ (i < 0 ∨ ((load_posts st).length : Int) ≤ i) := by
  rw [show detail st i = (if h : 0 ≤ i ∧ i < ((load_posts st).length : Int) then
    some ((load_posts st).get ⟨i.toNat, by omega⟩) else none) from rfl]
  split_ifs with h
  · constructor
    · intro hn; exact absurd hn (by simp)
    · intro hor; exfalso; omega
  · constructor
    · intro _; omega
    · intro _; rfl

theorem edit_in_bounds (st : Option (List Char)) (i : Int) (t c : List Char)
    (h0 : 0 ≤ i) (h1 : i < ((load_posts st).length : Int)) :
    (edit st i t c).1 =
      save_all_posts ((load_posts st).set i.toNat (strPost t c)) ∧
    (edit st i t c).2 = false := by
  unfold edit
  rw [if_pos ⟨h0, h1⟩]
  exact ⟨rfl, rfl⟩

theorem set_wf (st : Option (List Char)) (n : Nat) (p : Post) (hp : wfPost p) :
    ∀ q ∈ (load_posts st).set n p, wfPost q := by
  intro q hq
  rcases List.mem_or_eq_of_mem_set hq with hq | rfl
  · exact load_posts_wf st q hq
  · exact hp

theorem eraseIdx_wf (st : Option (List Char)) (n : Nat) :
    ∀ q ∈ (load_posts st).eraseIdx n, wfPost q := by
  intro q hq
  exact load_posts_wf st q (List.mem_of_mem_eraseIdx hq)

theorem load_edit (st : Option (List Char)) (i : Int) (t c : List Char)
    (h0 : 0 ≤ i) (h1 : i < ((load_posts st).length : Int)) :
    load_posts (edit st i t c).1 = (load_posts st).set i.toNat (strPost t c) := by
  rw [(edit_in_bounds st i t c h0 h1).1]
  exact load_posts_saveAll _ (set_wf st i.toNat (strPost t c) ⟨rfl, rfl⟩)

theorem load_delete (st : Option (List Char)) (i : Int)
    (h0 : 0 ≤ i) (h1 : i < ((load_posts st).length : Int)) :
    load_posts (delete st i) = (load_posts st).eraseIdx i.toNat := by
  unfold delete
  rw [if_pos ⟨h0, h1⟩]
  exact load_posts_saveAll _ (eraseIdx_wf st i.toNat)

/-! ## First-occurrence property of the legacy split -/

theorem splitFirstDelim_spec (l t c : List Char)
    (h : splitFirstDelim l = some (t, c)) :
    l = t ++ '|' :: '|' :: '|' :: c ∧ ∀ u v, t ≠ u ++ '|' :: '|' :: '|' :: v := by
  induction l generalizing t with
  | nil => exact Option.noConfusion h
  | cons c0 l0 ih =>
    simp only [splitFirstDelim] at h
    split_ifs at h with hsp
    · obtain ⟨hc0, htake⟩ := hsp
      subst hc0
      cases h
      refine ⟨?_, ?_⟩
      · rw [show l0 = l0.take 2 ++ l0.drop 2 by simp, htake]
        rfl
      · intro u v he
        cases u <;> simp at he
    · cases hrec : splitFirstDelim l0 with
      | none => rw [hrec] at h; exact Option.noConfusion h
      | some q =>
        obtain ⟨t0, c0'⟩ := q
        rw [hrec] at h
        simp only [Option.map_some', Option.some.injEq, Prod.mk.injEq] at h
        obtain ⟨ht, hc⟩ := h
        subst hc
        subst ht
        obtain ⟨heq, hmin⟩ := ih t0 hrec
        subst heq
        refine ⟨rfl, ?_⟩
        intro u v he
        cases u with
        | nil =>
          simp only [List.nil_append, List.cons.injEq] at he
          obtain ⟨hc0p, ht0⟩ := he
          subst ht0
          exact hsp ⟨hc0p, by simp⟩
        | cons u0 u' =>
          simp only [List.cons_append, List.cons.injEq] at he
          exact hmin u' v he.2

/-! ## The claims -/


theorem detail_eq_getElem (st : Option (List Char)) (i : Int) (h0 : 0 ≤ i) :
    detail st i = (load_posts st)[i.toNat]? := by
  by_cases h : 0 ≤ i ∧ i < ((load_posts st).length : Int)
  · rw [show detail st i =
      some ((load_posts st).get ⟨i.toNat, by omega⟩) from dif_pos h]
    rw [List.getElem?_eq_getElem (show i.toNat < (load_posts st).length by omega)]
    rfl
  · rw [show detail st i = none from dif_neg h]
    have hlen : (load_posts st).length ≤ i.toNat := by omega
    exact (List.getElem?_eq_none hlen).symm

/-- C1 (amended): reading back a created post returns the stripped title and
the exact content, the legacy delimiter and newlines included. -/
theorem C1_create_round_trip (st : Option (List Char)) (title content : List Char)
    (h : cleanTail st) :
    load_posts (create st title content) =
      load_posts st ++ [strPost (pyStrip title) content] :=
  load_create st title content h

theorem C1_create_round_trip_witness :
    cleanTail (none : Option (List Char)) ∧
    load_posts (create none (toL "T") (toL "a|||b\nλ ")) =
      [strPost (toL "T") (toL "a|||b\nλ ")] :=
  ⟨trivial, C1_create_round_trip none (toL "T") (toL "a|||b\nλ ") trivial⟩

/-- C1 counterexample: a title with leading whitespace does not come back
exactly — `create` strips it. -/
theorem C1_title_stripped_cex :
    load_posts (create none (toL " A") (toL "x")) =
      [strPost (toL "A") (toL "x")] ∧
    toL " A" ≠ toL "A" :=
  ⟨rfl, by decide⟩

/-- C2: the legacy line and the JSON line load as the two expected posts in
file order, and in general the loader maps the file's lines independently
and in order. -/
theorem C2_dual_format_order :
    load_posts (some
        (toL "Hello|||World\n\x7b\"title\":\"A\",\"content\":\"B\"\x7d\n")) =
      [strPost (toL "Hello") (toL "World"), strPost (toL "A") (toL "B")] ∧
    ∀ raw, load_posts (some raw) = (fileLines raw).filterMap lineToPost :=
  ⟨rfl, load_posts_filterMap⟩

/-- C3: `detail` 404s exactly off `[0, length)`, and `delete` on that same
range leaves the stored file untouched. -/
theorem C3_detail_delete_bounds (st : Option (List Char)) (i : Int) :
    (detail st i = none ↔ i < 0 ∨ ((load_posts st).length : Int) ≤ i) ∧
    ((i < 0 ∨ ((load_posts st).length : Int) ≤ i) → delete st i = st) := by
  refine ⟨detail_none_iff st i, fun h => ?_⟩
  unfold delete
  rw [if_neg (by omega)]

/-- C4: an in-bounds `edit` replaces exactly the addressed element: no 404,
the new list is the old one with position `i` set, the length and every
other position are unchanged, and `detail` at `i` returns the new post. -/
theorem C4_update_frame (st : Option (List Char)) (i : Int) (t c : List Char)
    (h0 : 0 ≤ i) (h1 : i < ((load_posts st).length : Int)) :
    (edit st i t c).2 = false ∧
    load_posts (edit st i t c).1 = (load_posts st).set i.toNat (strPost t c) ∧
    detail (edit st i t c).1 i = some (strPost t c) ∧
    (load_posts (edit st i t c).1).length = (load_posts st).length ∧
    ∀ j : Nat, j ≠ i.toNat →
      (load_posts (edit st i t c).1)[j]? = (load_posts st)[j]? := by
  have hload := load_edit st i t c h0 h1
  refine ⟨(edit_in_bounds st i t c h0 h1).2, hload, ?_, ?_, ?_⟩
  · rw [detail_eq_getElem _ i h0, hload, List.getElem?_set_eq (by omega)]
  · rw [hload, List.length_set]
  · intro j hj
    rw [hload, List.getElem?_set_ne (Ne.symm hj)]

theorem C4_update_frame_witness :
    (0 : Int) ≤ 0 ∧ (0 : Int) < ((load_posts (some (toL "A|||B\n"))).length : Int) ∧
    detail (edit (some (toL "A|||B\n")) 0 (toL "T2") (toL "C2")).1 0 =
      some (strPost (toL "T2") (toL "C2")) :=
  ⟨le_refl 0, by decide,
    (C4_update_frame (some (toL "A|||B\n")) 0 (toL "T2") (toL "C2")
      (le_refl 0) (by decide)).2.2.1⟩

/-- C5: an in-bounds `delete` erases exactly position `i`. -/
theorem C5_delete_removes (st : Option (List Char)) (i : Int)
    (h0 : 0 ≤ i) (h1 : i < ((load_posts st).length : Int)) :
    load_posts (delete st i) = (load_posts st).eraseIdx i.toNat :=
  load_delete st i h0 h1

theorem C5_delete_removes_witness :
    (0 : Int) ≤ 0 ∧
    (0 : Int) < ((load_posts (save_all_posts
      [strPost (toL "A") (toL "a"), strPost (toL "B") (toL "b")])).length : Int) ∧
    load_posts (delete (save_all_posts
        [strPost (toL "A") (toL "a"), strPost (toL "B") (toL "b")]) 0) =
      [strPost (toL "B") (toL "b")] :=
  ⟨le_refl 0, by decide,
    (C5_delete_removes (save_all_posts
        [strPost (toL "A") (toL "a"), strPost (toL "B") (toL "b")]) 0
      (le_refl 0) (by decide)).trans rfl⟩

/-- C6 (amended): when the JSON step fails and the fully stripped line
splits on the first `|||`, the loader appends that split: the title is the
stripped line's prefix before the FIRST delimiter (leading whitespace is
stripped too), the content everything after it, verbatim. -/
theorem C6_legacy_split (raw t c : List Char)
    (hjs : jsonStep (pyStrip raw) = none)
    (hsp : splitFirstDelim (pyStrip raw) = some (t, c)) :
    lineToPost raw = some (strPost t c) ∧
    pyStrip raw = t ++ '|' :: '|' :: '|' :: c ∧
    ∀ u v, t ≠ u ++ '|' :: '|' :: '|' :: v := by
  have hne : pyStrip raw ≠ [] := by
    intro h; rw [h] at hsp; exact Option.noConfusion hsp
  obtain ⟨heq, hmin⟩ := splitFirstDelim_spec _ t c hsp
  refine ⟨?_, heq, hmin⟩
  unfold lineToPost
  rw [if_neg hne, hjs, hsp]

theorem C6_legacy_split_witness :
    jsonStep (pyStrip (toL "  A|||B|||C ")) = none ∧
    splitFirstDelim (pyStrip (toL "  A|||B|||C ")) =
      some (toL "A", toL "B|||C") ∧
    lineToPost (toL "  A|||B|||C ") = some (strPost (toL "A") (toL "B|||C")) :=
  ⟨rfl, rfl, (C6_legacy_split (toL "  A|||B|||C ") (toL "A") (toL "B|||C")
    rfl rfl).1⟩

/-- C6 counterexample: the loader strips LEADING whitespace from the line as
well, so the stored title is not the full prefix before `|||`. -/
theorem C6_leading_ws_cex :
    load_posts (some (toL "  A|||B\n")) = [strPost (toL "A") (toL "B")] ∧
    toL "  A" ≠ toL "A" :=
  ⟨rfl, by decide⟩

/-- C7 (amended): the JSON step appends exactly when `json.loads` returns a
dict with both keys PRESENT — their values are taken as-is, string or not;
and a line failing both steps is skipped. -/
theorem C7_key_presence_only (raw : List Char) :
    ((∃ p, jsonStep (pyStrip raw) = some p) ↔
      ∃ fs, pyLoads (pyStrip raw) = some (Json.obj fs) ∧
        (hasKey fs (toL "title") && hasKey fs (toL "content")) = true) ∧
    (jsonStep (pyStrip raw) = none → splitFirstDelim (pyStrip raw) = none →
      lineToPost raw = none) := by
  constructor
  · constructor
    · rintro ⟨p, hp⟩
      unfold jsonStep at hp
      split at hp
      next fs heq =>
        split_ifs at hp with hk
        exact ⟨fs, heq, hk⟩
      next heq => exact Option.noConfusion hp
    · rintro ⟨fs, heq, hk⟩
      refine ⟨⟨lookupKey fs (toL "title"), lookupKey fs (toL "content")⟩, ?_⟩
      unfold jsonStep
      rw [heq]
      simp only []
      rw [if_pos hk]
  · intro hj hs
    unfold lineToPost
    by_cases hne : pyStrip raw = []
    · rw [if_pos hne]
    · rw [if_neg hne, hj, hs]

/-- C7 counterexample: `\x7b"title": 1, "content": 2\x7d` IS appended, with
its non-string values kept. -/
theorem C7_non_string_values_kept :
    load_posts (some (toL "\x7b\"title\": 1, \"content\": 2\x7d\n")) =
      [⟨Json.num (toL "1"), Json.num (toL "2")⟩] ∧
    ∀ t c, (⟨Json.num (toL "1"), Json.num (toL "2")⟩ : Post) ≠ strPost t c := by
  refine ⟨rfl, fun t c h => ?_⟩
  simp [strPost] at h

/-- C8: `create` strips the title only; the content — leading, trailing and
internal whitespace and newlines included — is stored verbatim, and empty
title or content is accepted. -/
theorem C8_strip_title_only (st : Option (List Char)) (title content : List Char)
    (h : cleanTail st) :
    load_posts (create st title content) =
      load_posts st ++ [strPost (pyStrip title) content] ∧
    load_posts (create st title []) =
      load_posts st ++ [strPost (pyStrip title) []] ∧
    load_posts (create st [] content) =
      load_posts st ++ [strPost [] content] := by
  refine ⟨load_create st title content h, load_create st title [] h, ?_⟩
  have := load_create st [] content h
  rwa [show pyStrip [] = [] from rfl] at this

theorem C8_strip_title_only_witness :
    cleanTail (none : Option (List Char)) ∧
    load_posts (create none (toL " T ") (toL " c\n ")) =
      [strPost (toL "T") (toL " c\n ")] :=
  ⟨trivial, (C8_strip_title_only none (toL " T ") (toL " c\n ") trivial).1⟩

/-- C9: an out-of-bounds `edit` 404s and returns the file state untouched —
no write happens on the error path. -/
theorem C9_update_out_of_bounds (st : Option (List Char)) (i : Int)
    (t c : List Char) (h : i < 0 ∨ ((load_posts st).length : Int) ≤ i) :
    edit st i t c = (st, true) := by
  unfold edit
  rw [if_neg (by omega)]

theorem C9_update_out_of_bounds_witness :
    ((-1 : Int) < 0 ∨ ((load_posts (some (toL "A|||B\n"))).length : Int) ≤ -1) ∧
    edit (some (toL "A|||B\n")) (-1) (toL "t") (toL "c") =
      (some (toL "A|||B\n"), true) :=
  ⟨Or.inl (by decide),
    C9_update_out_of_bounds (some (toL "A|||B\n")) (-1) (toL "t") (toL "c")
      (Or.inl (by decide))⟩

/-- C10: rewriting any list of string-valued posts with `save_all_posts` and
loading again returns that exact list, whatever the file held before
(`save_all_posts` truncates). -/
theorem C10_save_load_id (ps : List (List Char × List Char)) :
    load_posts (save_all_posts (ps.map (fun q => strPost q.1 q.2))) =
      ps.map (fun q => strPost q.1 q.2) := by
  apply load_posts_saveAll
  intro p hp
  rw [List.mem_map] at hp
  obtain ⟨q, _, rfl⟩ := hp
  exact ⟨rfl, rfl⟩

end FlaskBoard
